import Mathlib

set_option linter.unusedVariables false

/-!
Sequential MapReduce: `main/mrsequential.go` and the word-count plugin `mrapps/wc.go`.

A shallow embedding of the two Go source files.

Representation choices.

* A Go `string` is embedded as a Lean `String`, that is, as the sequence of code points of
  a UTF-8 text.  Go compares strings byte by byte; the order `<` of Lean strings is the
  lexicographic order of the code points, and `utf8Bytes_lt` shows that it is the
  lexicographic order of the UTF-8 bytes as well.
* A Go slice is embedded as a `List`; an index read is a checked read (`l[i]?`), an
  out-of-range read being the run-time panic `Abort.indexOutOfRange`.
* The loops of `main` are index loops, as in the source.  They are defined by structural
  recursion on an iteration budget, which makes them evaluable; running out of budget is
  the outcome `Abort.outOfFuel`, which corresponds to no behaviour of the Go program.
* A call of the plugin's reduce function may panic: a reduce function returns an `Option`.
* The file `mr-out-0` is embedded as the list of the records written to it, one record for
  each `fmt.Fprintf`; `fileText` gives its text.  The calls made to the plugin functions are
  logged in the state, so that statements about the calls can be made.
* The environment of `main` (what `plugin.Open` and `Lookup` give, which input files can be
  opened and read) is the parameter `World`; a run of `main` yields the trace of its steps
  up to the creation of `mr-out-0`, its exit status and its output phase.  Creating
  `mr-out-0` and writing to it are taken to succeed (the source discards their errors).
* Functions of the Go standard library (`sort.Sort`, `strings.FieldsFunc`,
  `unicode.IsLetter`, `strconv.Itoa`) are not part of the repository.  `sort.Sort` is taken
  through its documented contract (`Sorter`), `unicode.IsLetter` is a parameter, and the
  other two are modelled on their documented behaviour.
-/

namespace MapReduce

/-! ## Data model -/

/-- Modelled from the spec: the type `mr.KeyValue` of package `6.824/mr`, which is declared
outside the two source files; "an ordered pair (key: string, value: string)", used in the
source as `mr.KeyValue{w, "1"}`, `.Key` and `.Value`. -/
structure KeyValue where
  Key : String
  Value : String
deriving DecidableEq

/-- The slice type of `mrsequential.go`, `type ByKey []mr.KeyValue`. -/
abbrev ByKey := List KeyValue

/-- The method `func (a ByKey) Len() int { return len(a) }`. -/
def ByKey.Len (a : ByKey) : Nat := a.length

/-- The method `func (a ByKey) Swap(i, j int) { a[i], a[j] = a[j], a[i] }`.  With an index
out of range the Go method panics; here the slice is then left as it is. -/
def ByKey.Swap (a : ByKey) (i j : Nat) : ByKey :=
  match a[i]?, a[j]? with
  | some x, some y => (a.set i y).set j x
  | _, _ => a

/-- The method `func (a ByKey) Less(i, j int) bool { return a[i].Key < a[j].Key }`.  With an
index out of range the Go method panics; here the answer is then `false`. -/
def ByKey.Less (a : ByKey) (i j : Nat) : Bool :=
  match a[i]?, a[j]? with
  | some x, some y => decide (x.Key < y.Key)
  | _, _ => false

/-- The contract of the library call `sort.Sort(ByKey(intermediate))`: "Sort sorts data in
ascending order as determined by the Less method. [...] The sort is not guaranteed to be
stable."  The slice is rearranged in place through `Swap`, so the result is a permutation
of the argument, and afterwards `Less j i` is false whenever `i < j`. -/
structure Sorter where
  sort : ByKey → ByKey
  perm : ∀ a : ByKey, List.Perm (sort a) a
  sorted : ∀ (a : ByKey) (i j : Nat), i < j → j < (sort a).Len → (sort a).Less j i = false

/-- A map function of a plugin, `func(string, string) []mr.KeyValue`. -/
abbrev MapFn := String → String → List KeyValue

/-- A reduce function of a plugin, `func(string, []string) string`; `none` stands for a call
that panics instead of returning. -/
abbrev ReduceFn := String → List String → Option String

/-- A reduce function that always returns. -/
def total (reducef : String → List String → String) : ReduceFn :=
  fun key values => some (reducef key values)

/-- The ways in which the loops of `main` can stop early. -/
inductive Abort where
  | indexOutOfRange
  | reducePanic
  | outOfFuel
deriving DecidableEq

/-- One `fmt.Fprintf(ofile, "%v %v\n", key, output)`: the key and the reduce output. -/
abbrev OutputRecord := String × String

/-- The state of a run of the reduce phase of `main`: the records written to `mr-out-0` so
far, the calls made to `reducef` so far (key and values list), and the abort, if any. -/
structure Run where
  ofile : List OutputRecord
  calls : List (String × List String)
  abort : Option Abort
deriving DecidableEq

/-- The text of the line that `fmt.Fprintf(ofile, "%v %v\n", key, output)` writes. -/
def formatLine (r : OutputRecord) : String :=
  r.1 ++ " " ++ r.2 ++ "\n"

/-- The contents of `mr-out-0`: the lines written, one after the other. -/
def fileText (ofile : List OutputRecord) : String :=
  String.join (ofile.map formatLine)

/-! ## `main`: the map phase (lines 44-61) -/

/-- The state of the map loop: `intermediate`, and the calls made to `mapf` so far. -/
structure MapState where
  intermediate : List KeyValue
  calls : List (String × String)
deriving DecidableEq

/-- One iteration of `for _, filename := range os.Args[2:]` for a file that was opened and
read: `kva := mapf(filename, string(content))` and
`intermediate = append(intermediate, kva...)`. -/
def main.mapStep (mapf : MapFn) (st : MapState) (unit : String × String) : MapState :=
  let kva := mapf unit.1 unit.2
  { intermediate := st.intermediate ++ kva, calls := st.calls ++ [unit] }

/-- The map loop over the input units (file name and contents), starting from
`intermediate := []mr.KeyValue{}`. -/
def main.mapStage (mapf : MapFn) (units : List (String × String)) : MapState :=
  units.foldl (main.mapStep mapf) { intermediate := [], calls := [] }

/-! ## `main`: the reduce phase (lines 69-101) -/

/-- The inner scan `for j < len(intermediate) && intermediate[j].Key == intermediate[i].Key
{ j++ }`, from `j`; the result is the final `j`. -/
def main.scan (intermediate : List KeyValue) (i : Nat) : Nat → Nat → Except Abort Nat
  | 0, _ => .error .outOfFuel
  | fuel + 1, j =>
    if j < intermediate.length then
      match intermediate[j]?, intermediate[i]? with
      | some kvj, some kvi =>
        if kvj.Key = kvi.Key then main.scan intermediate i fuel (j + 1) else .ok j
      | _, _ => .error .indexOutOfRange
    else .ok j

/-- The loop `for k := i; k < j; k++ { values = append(values, intermediate[k].Value) }`,
from `k`. -/
def main.collect (intermediate : List KeyValue) (j : Nat) :
    Nat → Nat → List String → Except Abort (List String)
  | 0, _, _ => .error .outOfFuel
  | fuel + 1, k, values =>
    if k < j then
      match intermediate[k]? with
      | some kv => main.collect intermediate j fuel (k + 1) (values ++ [kv.Value])
      | none => .error .indexOutOfRange
    else .ok values

/-- The loop `for i < len(intermediate) { ... i = j }` of `main`, from `i`: scan the run of
the key at `i`, collect its values, call `reducef`, write the line, go on at `j`. -/
def main.reduceLoop (reducef : ReduceFn) (intermediate : List KeyValue) : Nat → Nat → Run → Run
  | 0, _, r => { r with abort := some .outOfFuel }
  | fuel + 1, i, r =>
    if i < intermediate.length then
      match main.scan intermediate i (intermediate.length + 1) (i + 1) with
      | .error e => { r with abort := some e }
      | .ok j =>
        match main.collect intermediate j (intermediate.length + 1) i [] with
        | .error e => { r with abort := some e }
        | .ok values =>
          match intermediate[i]? with
          | none => { r with abort := some .indexOutOfRange }
          | some kvi =>
            match reducef kvi.Key values with
            | none => { r with calls := r.calls ++ [(kvi.Key, values)], abort := some .reducePanic }
            | some output =>
              main.reduceLoop reducef intermediate fuel j
                { r with ofile := r.ofile ++ [(kvi.Key, output)],
                         calls := r.calls ++ [(kvi.Key, values)] }
    else r

/-- Lines 69-101 of `main`: `sort.Sort(ByKey(intermediate))`, create `mr-out-0` (empty), and
run the reduce loop from `i := 0`. -/
def main.reduceStage (srt : Sorter) (reducef : ReduceFn) (intermediate : List KeyValue) : Run :=
  let sorted := srt.sort intermediate
  main.reduceLoop reducef sorted (sorted.length + 1) 0 { ofile := [], calls := [], abort := none }

/-- Lines 44-101 of `main` for input files that were all opened and read: the map phase over
the units, then the reduce phase. -/
def main.driver (srt : Sorter) (mapf : MapFn) (reducef : ReduceFn)
    (units : List (String × String)) : Run :=
  main.reduceStage srt reducef (main.mapStage mapf units).intermediate

/-! ## Vocabulary for the statements -/

/-- The values of the records of `l` that have key `K`, in the order of `l`. -/
def valuesOf (K : String) (l : List KeyValue) : List String :=
  (l.filter (fun kv => decide (kv.Key = K))).map KeyValue.Value

/-- The concatenation, in input order, of the outputs of `mapf` on the units. -/
def mapOutputs (mapf : MapFn) (units : List (String × String)) : List KeyValue :=
  units.flatMap (fun u => mapf u.1 u.2)

/-- The maximal runs of equal keys of `l`, from left to right: each with its key and the
values of its records. -/
def groups : List KeyValue → List (String × List String)
  | [] => []
  | kv :: rest =>
    (kv.Key, kv.Value :: (rest.takeWhile (fun x => decide (x.Key = kv.Key))).map KeyValue.Value)
      :: groups (rest.dropWhile (fun x => decide (x.Key = kv.Key)))
termination_by l => l.length
decreasing_by
  simp only [List.length_cons]
  exact Nat.lt_succ_of_le (List.Sublist.length_le (List.dropWhile_sublist _))

/-- The reduce loop seen on the runs of keys: call `reducef` on each run in turn and write
its record, stopping at the first call that panics. -/
def feed (reducef : ReduceFn) : List (String × List String) → Run → Run
  | [], r => r
  | (k, vs) :: gs, r =>
    match reducef k vs with
    | none => { r with calls := r.calls ++ [(k, vs)], abort := some .reducePanic }
    | some output =>
      feed reducef gs
        { r with ofile := r.ofile ++ [(k, output)], calls := r.calls ++ [(k, vs)] }

/-! ## Two implementations of the `sort.Sort` contract -/

/-- The order of the keys of two records, on the characters of the keys. -/
def keyLE (x y : KeyValue) : Prop := x.Key.toList ≤ y.Key.toList

instance keyLE.decidable : DecidableRel keyLE :=
  fun x y => inferInstanceAs (Decidable (x.Key.toList ≤ y.Key.toList))

instance keyLE.isTotal : IsTotal KeyValue keyLE :=
  ⟨fun x y => le_total x.Key.toList y.Key.toList⟩

instance keyLE.isTrans : IsTrans KeyValue keyLE :=
  ⟨fun x y z (hxy : x.Key.toList ≤ y.Key.toList) (hyz : y.Key.toList ≤ z.Key.toList) =>
    le_trans hxy hyz⟩

/-- An insertion sort by key after a rearranging pass `pre`: it meets the contract of
`sort.Sort` whenever the pass only permutes the slice.  Insertion sort itself keeps records
of equal key in the order in which it receives them. -/
def Sorter.afterPass (pre : ByKey → ByKey) (hpre : ∀ a : ByKey, List.Perm (pre a) a) : Sorter where
  sort := fun a => List.insertionSort keyLE (pre a)
  perm := fun a => (List.perm_insertionSort keyLE (pre a)).trans (hpre a)
  sorted := by
    intro a i j hij hj
    have hs : (List.insertionSort keyLE (pre a)).Pairwise keyLE :=
      List.sorted_insertionSort keyLE (pre a)
    rw [List.pairwise_iff_getElem] at hs
    have hj' : j < (List.insertionSort keyLE (pre a)).length := hj
    have hi' : i < (List.insertionSort keyLE (pre a)).length := Nat.lt_trans hij hj'
    have hle := hs i j hi' hj' hij
    unfold ByKey.Less
    rw [List.getElem?_eq_getElem hj', List.getElem?_eq_getElem hi']
    simpa using String.le_iff_toList_le.mpr hle

/-- A stable implementation of `sort.Sort`: insertion sort by key. -/
def stableSorter : Sorter :=
  Sorter.afterPass (fun a => a) (fun a => List.Perm.refl a)

/-- The test `data.Less(i, j)` on the characters of the keys: the value of `ByKey.Less`,
in a form that evaluates. -/
def lessAt (data : ByKey) (i j : Nat) : Bool :=
  match data[i]?, data[j]? with
  | some x, some y => decide (x.Key.toList < y.Key.toList)
  | _, _ => false

/-- The pass `for i := a + 6; i < b; i++ { if data.Less(i, i-6) { data.Swap(i, i-6) } }`
with which `sort.Sort`, as shipped with Go up to release 1.18, starts on a slice of at most
12 elements before it runs its insertion sort; from `i`. -/
def gapPass : Nat → Nat → ByKey → ByKey
  | 0, _, data => data
  | fuel + 1, i, data =>
    if i < data.Len then
      gapPass fuel (i + 1) (if lessAt data i (i - 6) then data.Swap i (i - 6) else data)
    else data

/-- The implementation of `sort.Sort` of Go up to release 1.18 on slices of at most 12
elements: the pass with gap 6, then insertion sort.  (On longer slices that library
partitions first; this definition sorts them all the same.)  It is not stable. -/
def shellSorter : Sorter :=
  Sorter.afterPass (fun a => gapPass a.length 6 a) (by
    have hset : ∀ (t : List KeyValue) (n : Nat) (y h : KeyValue), t[n]? = some y →
        List.Perm (y :: t.set n h) (h :: t) := by
      intro t
      induction t with
      | nil => intro n y h hn; simp at hn
      | cons z zs ih =>
        intro n y h hn
        cases n with
        | zero =>
          simp only [List.getElem?_cons_zero, Option.some.injEq] at hn
          subst hn
          simpa using List.Perm.swap h z zs
        | succ n =>
          simp only [List.getElem?_cons_succ] at hn
          simp only [List.set_cons_succ]
          exact (List.Perm.swap z y _).trans
            (((ih n y h hn).cons z).trans (List.Perm.swap h z zs))
    have hswap : ∀ (a : ByKey) (i j : Nat), List.Perm (a.Swap i j) a := by
      intro a
      induction a with
      | nil => intro i j; simp [ByKey.Swap]
      | cons h t ih =>
        intro i j
        cases i with
        | zero =>
          cases j with
          | zero => simp [ByKey.Swap]
          | succ j =>
            unfold ByKey.Swap
            cases hj : t[j]? with
            | none => simp [hj]
            | some y =>
              simp only [List.getElem?_cons_zero, List.getElem?_cons_succ, hj, List.set_cons_zero,
                List.set_cons_succ]
              exact hset t j y h hj
        | succ i =>
          cases j with
          | zero =>
            unfold ByKey.Swap
            cases hi : t[i]? with
            | none => simp [hi]
            | some x =>
              simp only [List.getElem?_cons_zero, List.getElem?_cons_succ, hi, List.set_cons_zero,
                List.set_cons_succ]
              exact hset t i x h hi
          | succ j =>
            have := ih i j
            unfold ByKey.Swap at this ⊢
            cases hi : t[i]? with
            | none => simp [hi]
            | some x =>
              cases hj : t[j]? with
              | none => simp [hi, hj]
              | some y =>
                simp only [hi, hj] at this
                simp only [List.getElem?_cons_succ, hi, hj, List.set_cons_succ]
                exact this.cons h
    have hgap : ∀ (fuel i : Nat) (data : ByKey), List.Perm (gapPass fuel i data) data := by
      intro fuel
      induction fuel with
      | zero => intro i data; exact List.Perm.refl _
      | succ fuel ih =>
        intro i data
        unfold gapPass
        by_cases hi : i < data.Len
        · simp only [hi, if_true]
          refine (ih _ _).trans ?_
          by_cases hl : lessAt data i (i - 6) = true
          · simp only [hl, if_true]
            exact hswap data i (i - 6)
          · simp only [hl]
            exact List.Perm.refl _
        · simp only [hi, if_false]
          exact List.Perm.refl _
    exact fun a => hgap a.length 6 a)

/-! ## The word-count plugin `mrapps/wc.go` -/

/-- The scan of `strings.FieldsFunc` over the code points of the string: `start` is the
field that is open (`none` when the scan is between fields), `spans` the fields closed so
far. -/
def strings.FieldsFunc.scan (f : Char → Bool) :
    List Char → Option (List Char) → List String → List String
  | [], none, spans => spans
  | [], some w, spans => spans ++ [String.mk w]
  | c :: cs, start, spans =>
    if f c then
      match start with
      | some w => strings.FieldsFunc.scan f cs none (spans ++ [String.mk w])
      | none => strings.FieldsFunc.scan f cs none spans
    else
      match start with
      | some w => strings.FieldsFunc.scan f cs (some (w ++ [c])) spans
      | none => strings.FieldsFunc.scan f cs (some [c]) spans

/-- The library function `strings.FieldsFunc(s, f)`, modelled on its documentation:
"FieldsFunc splits the string s at each run of Unicode code points c satisfying f(c) and
returns an array of slices of s.  If all code points in s satisfy f(c) or the string is
empty, an empty slice is returned." -/
def strings.FieldsFunc (s : String) (f : Char → Bool) : List String :=
  strings.FieldsFunc.scan f s.toList none []

/-- The library function `strconv.Itoa(i)`, modelled on its documentation: the decimal
representation of `i`, with a leading minus sign when `i` is negative. -/
def strconv.Itoa (i : Int) : String :=
  match i with
  | Int.ofNat n => Nat.repr n
  | Int.negSucc n => "-" ++ Nat.repr (n + 1)

/-- The function `Map` of `wc.go`; `IsLetter` stands for the library predicate
`unicode.IsLetter`. -/
def wc.Map (IsLetter : Char → Bool) (filename : String) (contents : String) : List KeyValue :=
  let ff := fun (r : Char) => !IsLetter r
  let words := strings.FieldsFunc contents ff
  words.foldl (fun kva w => kva ++ [KeyValue.mk w "1"]) []

/-- The function `Reduce` of `wc.go`: `return strconv.Itoa(len(values))`. -/
def wc.Reduce (key : String) (values : List String) : String :=
  strconv.Itoa (Int.ofNat values.length)

/-! ## Vocabulary for the statements about word count -/

/-- The maximal runs of letters of a text, in order of appearance: skip what is not a
letter, take letters as long as there are letters, and go on with the rest. -/
def letterRuns (IsLetter : Char → Bool) (s : List Char) : List (List Char) :=
  match h : s.dropWhile (fun c => !IsLetter c) with
  | [] => []
  | c :: t => (c :: t.takeWhile IsLetter) :: letterRuns IsLetter (t.dropWhile IsLetter)
termination_by s.length
decreasing_by
  have h1 := List.Sublist.length_le (List.dropWhile_sublist (l := s) (fun c => !IsLetter c))
  have h2 := List.Sublist.length_le (List.dropWhile_sublist (l := t) IsLetter)
  rw [h, List.length_cons] at h1
  omega

/-- The words of a list of input units: the maximal runs of letters of the contents of
each unit, unit after unit. -/
def wordsOf (IsLetter : Char → Bool) (units : List (String × String)) : List String :=
  units.flatMap (fun u => (letterRuns IsLetter u.2.toList).map String.mk)

/-- The UTF-8 encoding of the code point `c`, as a list of bytes. -/
def utf8EncodeChar (c : Nat) : List Nat :=
  if c < 128 then [c]
  else if c < 2048 then [192 + c / 64, 128 + c % 64]
  else if c < 65536 then [224 + c / 4096, 128 + c / 64 % 64, 128 + c % 64]
  else [240 + c / 262144, 128 + c / 4096 % 64, 128 + c / 64 % 64, 128 + c % 64]

/-- The bytes of a string: the UTF-8 encodings of its code points, one after the other. -/
def utf8Bytes (s : String) : List Nat :=
  s.toList.flatMap (fun c => utf8EncodeChar c.toNat)

/-- The number that a sequence of decimal digits writes, the most significant digit
first. -/
def decimalValue (digits : List Char) : Nat :=
  digits.foldl (fun n c => n * 10 + (c.toNat - 48)) 0

/-- The string `s` is the base-10 representation of `n`: one or more decimal digits, without
a leading zero unless `s` is "0", that write `n`. -/
def IsDecimalOf (s : String) (n : Nat) : Prop :=
  s.toList ≠ [] ∧ (∀ c ∈ s.toList, c.isDigit = true) ∧
    (s.toList.head? = some '0' → s.toList = ['0']) ∧ decimalValue s.toList = n

/-! ## `main` and `loadPlugin` with their environment -/

/-- A symbol of a plugin, as `p.Lookup` returns it: a function of the type of a map
function, a function of the type of a reduce function, or a value of another type. -/
inductive Symbol where
  | mapFunc (f : MapFn)
  | reduceFunc (f : ReduceFn)
  | other

/-- A plugin that `plugin.Open` has opened: `Lookup symName` is the symbol of that name,
`none` when the lookup returns an error. -/
structure Plugin where
  Lookup : String → Option Symbol

/-- What happens when `main` opens and reads an input file. -/
inductive FileResult where
  | cannotOpen
  | cannotRead
  | contents (text : String)
deriving DecidableEq

/-- The environment of a run: what `plugin.Open(filename)` gives (`none` for an error), and
what opening and reading the file of a given name gives. -/
structure World where
  pluginOpen : String → Option Plugin
  file : String → FileResult

/-- The steps of a run of `main` up to the creation of the output file, as far as they are
observable: `stderr` is a `fmt.Fprintf(os.Stderr, ...)`, `fatal` a `log.Fatalf(...)` (the
message goes to the error stream and the process exits with status 1), `panic` a failing
type assertion, `create` the call `os.Create(oname)`. -/
inductive Step where
  | stderr (text : String)
  | exit (status : Nat)
  | pluginOpen (filename : String)
  | lookup (symName : String)
  | fatal (msg : String)
  | panic
  | openFile (filename : String)
  | readAll (filename : String)
  | mapCall (filename : String) (contents : String)
  | sort
  | create (oname : String)
deriving DecidableEq

/-- How a run stops before it is done: `log.Fatalf` or a panic. -/
inductive Stop where
  | fatal
  | panic
deriving DecidableEq

/-- The exit status of a process that stops early: 1 after `log.Fatalf`, 2 after a panic. -/
def Stop.status : Stop → Nat
  | .fatal => 1
  | .panic => 2

/-- What a run of `main` did: its steps up to the creation of the output file, its exit
status, and the reduce phase on `mr-out-0` (`none` when `os.Create` was not reached). -/
structure Outcome where
  trace : List Step
  status : Nat
  output : Option Run

/-- The text of the usage message of `main`. -/
def usageText : String := "Usage: mrsequential xxx.so inputfiles...\n"

/-- The function `loadPlugin` of `mrsequential.go`: open the plugin, look up `Map` and
assert its type, look up `Reduce` and assert its type.  The result is the steps taken and
either the two functions or the way in which the process stopped. -/
def loadPlugin (w : World) (filename : String) : List Step × Except Stop (MapFn × ReduceFn) :=
  match w.pluginOpen filename with
  | none =>
    ([.pluginOpen filename, .fatal ("cannot load plugin " ++ filename)], .error .fatal)
  | some p =>
    match p.Lookup "Map" with
    | none =>
      ([.pluginOpen filename, .lookup "Map", .fatal ("cannot find Map in " ++ filename)],
        .error .fatal)
    | some (.mapFunc mapf) =>
      match p.Lookup "Reduce" with
      | none =>
        ([.pluginOpen filename, .lookup "Map", .lookup "Reduce",
            .fatal ("cannot find Reduce in " ++ filename)], .error .fatal)
      | some (.reduceFunc reducef) =>
        ([.pluginOpen filename, .lookup "Map", .lookup "Reduce"], .ok (mapf, reducef))
      | some _ =>
        ([.pluginOpen filename, .lookup "Map", .lookup "Reduce", .panic], .error .panic)
    | some _ => ([.pluginOpen filename, .lookup "Map", .panic], .error .panic)

/-- The loop `for _, filename := range os.Args[2:]` of `main`: open the file, read it, close
it, call `mapf` on its name and contents and append the result to `intermediate`; a file
that cannot be opened or read stops the process with `log.Fatalf`. -/
def main.mapLoop (w : World) (mapf : MapFn) :
    List String → MapState → List Step → List Step × Except Stop MapState
  | [], st, tr => (tr, .ok st)
  | filename :: rest, st, tr =>
    match w.file filename with
    | .cannotOpen =>
      (tr ++ [.openFile filename, .fatal ("cannot open " ++ filename)], .error .fatal)
    | .cannotRead =>
      (tr ++ [.openFile filename, .readAll filename, .fatal ("cannot read " ++ filename)],
        .error .fatal)
    | .contents content =>
      main.mapLoop w mapf rest (main.mapStep mapf st (filename, content))
        (tr ++ [.openFile filename, .readAll filename, .mapCall filename content])

/-- The exit status of a process whose reduce phase ended as `run` did: 0 when `main`
returns, 2 after a panic. -/
def Run.status (run : Run) : Nat :=
  match run.abort with
  | none => 0
  | some _ => 2

/-- The function `main` of `mrsequential.go` on the argument vector `Args` (`os.Args`): the
check of the number of arguments, `loadPlugin(os.Args[1])` (the vector has at least 3
elements there), the map loop over `os.Args[2:]`, `sort.Sort`, `os.Create("mr-out-0")` and
the reduce loop. -/
def main (srt : Sorter) (w : World) (Args : List String) : Outcome :=
  if Args.length < 3 then
    { trace := [.stderr usageText, .exit 1], status := 1, output := none }
  else
    match loadPlugin w (Args.getD 1 "") with
    | (tr, .error stop) => { trace := tr, status := stop.status, output := none }
    | (tr, .ok (mapf, reducef)) =>
      match main.mapLoop w mapf (Args.drop 2) { intermediate := [], calls := [] } tr with
      | (tr, .error stop) => { trace := tr, status := stop.status, output := none }
      | (tr, .ok st) =>
        let sorted := srt.sort st.intermediate
        let oname := "mr-out-0"
        let run := main.reduceLoop reducef sorted (sorted.length + 1) 0
          { ofile := [], calls := [], abort := none }
        { trace := tr ++ [.sort, .create oname], status := run.status, output := some run }

/-- The plugin named `filename` resolves to the map function `mapf` and the reduce function
`reducef`: it can be opened, and its symbols `Map` and `Reduce` are functions of the
expected types. -/
def Resolves (w : World) (filename : String) (mapf : MapFn) (reducef : ReduceFn) : Prop :=
  ∃ p : Plugin, w.pluginOpen filename = some p ∧ p.Lookup "Map" = some (.mapFunc mapf)
    ∧ p.Lookup "Reduce" = some (.reduceFunc reducef)

/-- The steps of one iteration of the map loop on an input unit that can be read. -/
def readSteps (unit : String × String) : List Step :=
  [.openFile unit.1, .readAll unit.1, .mapCall unit.1 unit.2]

/-- The steps of loading the plugin and of the map loop, as opposed to the usage exit, the
sort and the creation of the output file. -/
def Step.isInput : Step → Bool
  | .pluginOpen _ => true
  | .lookup _ => true
  | .fatal _ => true
  | .panic => true
  | .openFile _ => true
  | .readAll _ => true
  | .mapCall _ _ => true
  | .stderr _ => false
  | .exit _ => false
  | .sort => false
  | .create _ => false

/-- The plugin that `go build -buildmode=plugin wc.go` makes: its symbols are `Map` and
`Reduce`. -/
def wc.plugin (IsLetter : Char → Bool) : Plugin where
  Lookup := fun symName =>
    if symName = "Map" then some (.mapFunc (wc.Map IsLetter))
    else if symName = "Reduce" then some (.reduceFunc (total wc.Reduce))
    else none

/-- An environment for examples: the plugin `wc.so`, the file `doc1.txt` with the text
"the cat the dog", the file `digits.txt` without a letter, the file `locked.txt` that opens
but cannot be read, and no other file. -/
def exampleWorld : World where
  pluginOpen := fun filename => if filename = "wc.so" then some (wc.plugin Char.isAlpha) else none
  file := fun filename =>
    if filename = "doc1.txt" then .contents "the cat the dog"
    else if filename = "digits.txt" then .contents "12 34"
    else if filename = "locked.txt" then .cannotRead
    else .cannotOpen

/-- The records of a call of the reduce function: the key with each of the values. -/
def recordsOf (call : String × List String) : List KeyValue :=
  call.2.map (fun v => KeyValue.mk call.1 v)

end MapReduce

namespace MapReduce

/-! ## The loops of `main` on lists -/

theorem scan_eq (a : List KeyValue) (i : Nat) (kvi : KeyValue) (hi : a[i]? = some kvi) :
    ∀ (fuel j : Nat), (a.drop j).length + 1 ≤ fuel →
      main.scan a i fuel j
        = .ok (j + ((a.drop j).takeWhile (fun x => decide (x.Key = kvi.Key))).length) := by
  intro fuel
  induction fuel with
  | zero => intro j h; omega
  | succ fuel ih =>
    intro j h
    unfold main.scan
    by_cases hj : j < a.length
    · have hd : a.drop j = a[j] :: a.drop (j + 1) := List.drop_eq_getElem_cons hj
      have hjq : a[j]? = some a[j] := List.getElem?_eq_getElem hj
      simp only [hj, if_true, hjq, hi]
      by_cases hk : a[j].Key = kvi.Key
      · have hlen : (a.drop (j + 1)).length + 1 ≤ fuel := by
          rw [hd] at h; simp only [List.length_cons] at h; omega
        rw [if_pos hk, ih (j + 1) hlen, hd, List.takeWhile_cons_of_pos (by simpa using hk)]
        simp only [List.length_cons]
        congr 1
        omega
      · rw [if_neg hk, hd, List.takeWhile_cons_of_neg (by simpa using hk)]
        simp
    · have hd : a.drop j = [] := List.drop_eq_nil_of_le (by omega)
      simp [hj, hd]

theorem collect_eq (a : List KeyValue) (j : Nat) (hj : j ≤ a.length) :
    ∀ (fuel k : Nat) (values : List String), k ≤ j → j - k + 1 ≤ fuel →
      main.collect a j fuel k values
        = .ok (values ++ ((a.drop k).take (j - k)).map KeyValue.Value) := by
  intro fuel
  induction fuel with
  | zero => intro k values _ h; omega
  | succ fuel ih =>
    intro k values hk h
    unfold main.collect
    by_cases hkj : k < j
    · have hka : k < a.length := by omega
      have hd : a.drop k = a[k] :: a.drop (k + 1) := List.drop_eq_getElem_cons hka
      have hkq : a[k]? = some a[k] := List.getElem?_eq_getElem hka
      have hs : j - k = (j - (k + 1)) + 1 := by omega
      simp only [hkj, if_true, hkq]
      rw [ih (k + 1) _ (by omega) (by omega), hd, hs, List.take_succ_cons]
      simp
    · have hz : j - k = 0 := by omega
      simp [hkj, hz]

theorem take_length_takeWhile {α : Type} (p : α → Bool) (l : List α) :
    l.take (l.takeWhile p).length = l.takeWhile p := by
  induction l with
  | nil => rfl
  | cons x xs ih =>
    by_cases hx : p x = true
    · simp [List.takeWhile_cons_of_pos hx, ih]
    · simp [List.takeWhile_cons_of_neg hx]

theorem drop_length_takeWhile {α : Type} (p : α → Bool) (l : List α) :
    l.drop (l.takeWhile p).length = l.dropWhile p := by
  induction l with
  | nil => rfl
  | cons x xs ih =>
    by_cases hx : p x = true
    · simp [List.takeWhile_cons_of_pos hx, List.dropWhile_cons_of_pos hx, ih]
    · simp [List.takeWhile_cons_of_neg hx, List.dropWhile_cons_of_neg hx]

theorem groups_cons (kv : KeyValue) (rest : List KeyValue) :
    groups (kv :: rest)
      = (kv.Key, kv.Value :: (rest.takeWhile (fun x => decide (x.Key = kv.Key))).map KeyValue.Value)
          :: groups (rest.dropWhile (fun x => decide (x.Key = kv.Key))) := by
  rw [groups]

theorem groups_nil : groups [] = [] := by
  rw [groups]

theorem reduceLoop_eq (reducef : ReduceFn) (a : List KeyValue) :
    ∀ (fuel i : Nat) (r : Run), i ≤ a.length → a.length - i + 1 ≤ fuel →
      main.reduceLoop reducef a fuel i r = feed reducef (groups (a.drop i)) r := by
  intro fuel
  induction fuel with
  | zero => intro i r _ h; omega
  | succ fuel ih =>
    intro i r hi h
    unfold main.reduceLoop
    by_cases hlt : i < a.length
    · have hd : a.drop i = a[i] :: a.drop (i + 1) := List.drop_eq_getElem_cons hlt
      have hiq : a[i]? = some a[i] := List.getElem?_eq_getElem hlt
      have hlen : (a.drop (i + 1)).length + 1 ≤ a.length + 1 := by
        simp only [List.length_drop]; omega
      have htl : ((a.drop (i + 1)).takeWhile (fun x => decide (x.Key = a[i].Key))).length
          ≤ a.length - (i + 1) := by
        have := List.Sublist.length_le
          (List.takeWhile_sublist (l := a.drop (i + 1)) (fun x => decide (x.Key = a[i].Key)))
        simpa only [List.length_drop] using this
      generalize htd : ((a.drop (i + 1)).takeWhile (fun x => decide (x.Key = a[i].Key))).length
        = t at htl
      have hsc := scan_eq a i a[i] hiq (a.length + 1) (i + 1) hlen
      rw [htd] at hsc
      have hco : main.collect a (i + 1 + t) (a.length + 1) i []
          = .ok (a[i].Value :: ((a.drop (i + 1)).takeWhile
              (fun x => decide (x.Key = a[i].Key))).map KeyValue.Value) := by
        have h1 := collect_eq a (i + 1 + t) (by omega) (a.length + 1) i [] (by omega) (by omega)
        have ht1 : i + 1 + t - i = t + 1 := by omega
        rw [ht1, hd, List.take_succ_cons] at h1
        rw [h1, ← htd, take_length_takeWhile]
        simp
      have hdrop : a.drop (i + 1 + t)
          = (a.drop (i + 1)).dropWhile (fun x => decide (x.Key = a[i].Key)) := by
        rw [← drop_length_takeWhile, htd, List.drop_drop]
      simp only [hlt, if_true, hsc, hco, hiq, hd, groups_cons]
      rw [← hdrop]
      unfold feed
      cases reducef a[i].Key
          (a[i].Value ::
            List.map KeyValue.Value
              (List.takeWhile (fun x => decide (x.Key = a[i].Key)) (List.drop (i + 1) a))) with
      | none => rfl
      | some output =>
        simp only
        exact ih (i + 1 + t) _ (by omega) (by omega)
    · have hd : a.drop i = [] := List.drop_eq_nil_of_le (by omega)
      simp [hlt, hd, groups_nil, feed]

/-- The reduce phase, on lists: the runs of keys of the sorted slice are fed to `reducef`. -/
theorem reduceStage_eq (srt : Sorter) (reducef : ReduceFn) (a : List KeyValue) :
    main.reduceStage srt reducef a
      = feed reducef (groups (srt.sort a)) { ofile := [], calls := [], abort := none } := by
  unfold main.reduceStage
  simpa using reduceLoop_eq reducef (srt.sort a) ((srt.sort a).length + 1) 0 _
    (Nat.zero_le _) (by omega)

/-! ## The contract of `sort.Sort` on lists -/

theorem Less_eq_false_iff (a : ByKey) (i j : Nat) (hi : i < a.length) (hj : j < a.length) :
    a.Less j i = false ↔ a[i].Key ≤ a[j].Key := by
  unfold ByKey.Less
  rw [List.getElem?_eq_getElem hi, List.getElem?_eq_getElem hj]
  simp

/-- After `sort.Sort`, the keys are in ascending order. -/
theorem Sorter.pairwise_le (srt : Sorter) (a : ByKey) :
    (srt.sort a).Pairwise (fun x y => x.Key ≤ y.Key) := by
  rw [List.pairwise_iff_getElem]
  intro i j hi hj hij
  exact (Less_eq_false_iff (srt.sort a) i j hi hj).mp (srt.sorted a i j hij hj)

/-! ## Runs of keys -/

theorem mem_takeWhile_key (k : String) (l : List KeyValue) :
    ∀ x ∈ l.takeWhile (fun x => decide (x.Key = k)), x.Key = k := by
  intro x hx
  simpa using List.mem_takeWhile_imp hx

theorem takeWhile_append_dropWhile_key (k : String) (l : List KeyValue) :
    l.takeWhile (fun x => decide (x.Key = k)) ++ l.dropWhile (fun x => decide (x.Key = k)) = l :=
  List.takeWhile_append_dropWhile _ l

/-- In a sorted slice, what follows the run of the least key has greater keys. -/
theorem lt_of_mem_dropWhile (k : String) :
    ∀ l : List KeyValue, l.Pairwise (fun x y => x.Key ≤ y.Key) → (∀ x ∈ l, k ≤ x.Key) →
      ∀ x ∈ l.dropWhile (fun x => decide (x.Key = k)), k < x.Key := by
  intro l
  induction l with
  | nil => intro _ _ x hx; simp at hx
  | cons y ys ih =>
    intro hp hk x hx
    rw [List.pairwise_cons] at hp
    by_cases hy : y.Key = k
    · rw [List.dropWhile_cons_of_pos (by simpa using hy)] at hx
      exact ih hp.2 (fun z hz => hk z (List.mem_cons_of_mem _ hz)) x hx
    · rw [List.dropWhile_cons_of_neg (by simpa using hy)] at hx
      have hky : k < y.Key := lt_of_le_of_ne (hk y (List.mem_cons_self _ _)) (Ne.symm hy)
      rcases List.mem_cons.mp hx with rfl | hmem
      · exact hky
      · exact lt_of_lt_of_le hky (hp.1 x hmem)

theorem groups_keys_mem (n : Nat) :
    ∀ l : List KeyValue, l.length ≤ n →
      ∀ k : String, k ∈ (groups l).map Prod.fst ↔ k ∈ l.map KeyValue.Key := by
  induction n with
  | zero =>
    intro l hl k
    have : l = [] := List.length_eq_zero.mp (Nat.le_zero.mp hl)
    subst this
    simp [groups_nil]
  | succ n ih =>
    intro l hl k
    cases l with
    | nil => simp [groups_nil]
    | cons kv rest =>
      have hdl : (rest.dropWhile (fun x => decide (x.Key = kv.Key))).length ≤ n := by
        have := List.Sublist.length_le
          (List.dropWhile_sublist (l := rest) (fun x => decide (x.Key = kv.Key)))
        simp only [List.length_cons] at hl
        omega
      rw [groups_cons, List.map_cons, List.mem_cons, ih _ hdl k, List.map_cons, List.mem_cons]
      constructor
      · rintro (h | h)
        · exact Or.inl h
        · right
          rw [List.mem_map] at h ⊢
          obtain ⟨x, hx, rfl⟩ := h
          exact ⟨x, (List.dropWhile_sublist _).subset hx, rfl⟩
      · rintro (h | h)
        · exact Or.inl h
        · rw [List.mem_map] at h
          obtain ⟨x, hx, rfl⟩ := h
          rw [← takeWhile_append_dropWhile_key kv.Key rest, List.mem_append] at hx
          rcases hx with hx | hx
          · exact Or.inl (mem_takeWhile_key kv.Key rest x hx)
          · exact Or.inr (List.mem_map.mpr ⟨x, hx, rfl⟩)

/-- The keys of the runs of `l` are the keys of `l`. -/
theorem mem_groups_keys (l : List KeyValue) (k : String) :
    k ∈ (groups l).map Prod.fst ↔ k ∈ l.map KeyValue.Key :=
  groups_keys_mem l.length l (Nat.le_refl _) k

theorem valuesOf_cons_takeWhile (kv : KeyValue) (rest : List KeyValue)
    (hgt : ∀ x ∈ rest.dropWhile (fun x => decide (x.Key = kv.Key)), kv.Key < x.Key) :
    valuesOf kv.Key (kv :: rest)
      = kv.Value :: (rest.takeWhile (fun x => decide (x.Key = kv.Key))).map KeyValue.Value := by
  have htw : (rest.takeWhile (fun x => decide (x.Key = kv.Key))).filter
      (fun x => decide (x.Key = kv.Key)) = rest.takeWhile (fun x => decide (x.Key = kv.Key)) := by
    rw [List.filter_eq_self]
    intro x hx
    simpa using mem_takeWhile_key kv.Key rest x hx
  have hdw : (rest.dropWhile (fun x => decide (x.Key = kv.Key))).filter
      (fun x => decide (x.Key = kv.Key)) = [] := by
    rw [List.filter_eq_nil_iff]
    intro x hx
    simpa using ne_of_gt (hgt x hx)
  unfold valuesOf
  rw [List.filter_cons_of_pos (by simp), List.map_cons]
  conv_lhs => rw [← takeWhile_append_dropWhile_key kv.Key rest]
  rw [List.filter_append, htw, hdw, List.append_nil]

theorem valuesOf_cons_dropWhile (kv : KeyValue) (rest : List KeyValue) (k : String)
    (hk : kv.Key ≠ k) :
    valuesOf k (kv :: rest)
      = valuesOf k (rest.dropWhile (fun x => decide (x.Key = kv.Key))) := by
  have htw : (rest.takeWhile (fun x => decide (x.Key = kv.Key))).filter
      (fun x => decide (x.Key = k)) = [] := by
    rw [List.filter_eq_nil_iff]
    intro x hx
    have := mem_takeWhile_key kv.Key rest x hx
    simpa [this] using hk
  unfold valuesOf
  rw [List.filter_cons_of_neg (by simpa using hk)]
  conv_lhs => rw [← takeWhile_append_dropWhile_key kv.Key rest]
  rw [List.filter_append, htw, List.nil_append]

theorem groups_of_sorted (n : Nat) :
    ∀ l : List KeyValue, l.length ≤ n → l.Pairwise (fun x y => x.Key ≤ y.Key) →
      ((groups l).map Prod.fst).Pairwise (fun k k' => k < k')
        ∧ ∀ g ∈ groups l, g.2 = valuesOf g.1 l := by
  induction n with
  | zero =>
    intro l hl _
    have : l = [] := List.length_eq_zero.mp (Nat.le_zero.mp hl)
    subst this
    simp [groups_nil]
  | succ n ih =>
    intro l hl hp
    cases l with
    | nil => simp [groups_nil]
    | cons kv rest =>
      rw [List.pairwise_cons] at hp
      have hsub := List.dropWhile_sublist (l := rest) (fun x => decide (x.Key = kv.Key))
      have hdl : (rest.dropWhile (fun x => decide (x.Key = kv.Key))).length ≤ n := by
        have := List.Sublist.length_le hsub
        simp only [List.length_cons] at hl
        omega
      have hgt := lt_of_mem_dropWhile kv.Key rest hp.2 hp.1
      have hkeys : ∀ k ∈ (groups (rest.dropWhile (fun x => decide (x.Key = kv.Key)))).map Prod.fst,
          kv.Key < k := by
        intro k hk
        rw [mem_groups_keys, List.mem_map] at hk
        obtain ⟨x, hx, rfl⟩ := hk
        exact hgt x hx
      obtain ⟨ih1, ih2⟩ := ih _ hdl (hp.2.sublist hsub)
      rw [groups_cons]
      refine ⟨?_, ?_⟩
      · rw [List.map_cons, List.pairwise_cons]
        exact ⟨hkeys, ih1⟩
      · intro g hg
        rcases List.mem_cons.mp hg with rfl | hg
        · exact (valuesOf_cons_takeWhile kv rest hgt).symm
        · have hlt : kv.Key < g.1 := hkeys g.1 (List.mem_map.mpr ⟨g, hg, rfl⟩)
          rw [ih2 g hg, valuesOf_cons_dropWhile kv rest g.1 (ne_of_lt hlt)]

/-- The runs of a sorted slice have strictly ascending keys. -/
theorem groups_keys_lt (l : List KeyValue) (hp : l.Pairwise (fun x y => x.Key ≤ y.Key)) :
    ((groups l).map Prod.fst).Pairwise (fun k k' => k < k') :=
  (groups_of_sorted l.length l (Nat.le_refl _) hp).1

/-- The run of a key in a sorted slice holds all the values of that key, in the order of the
slice. -/
theorem groups_values (l : List KeyValue) (hp : l.Pairwise (fun x y => x.Key ≤ y.Key)) :
    ∀ g ∈ groups l, g.2 = valuesOf g.1 l :=
  (groups_of_sorted l.length l (Nat.le_refl _) hp).2

/-- The values of a key are the same, up to their order, in a slice and in a permutation of
it. -/
theorem valuesOf_perm (K : String) {l l' : List KeyValue} (h : l.Perm l') :
    (valuesOf K l).Perm (valuesOf K l') :=
  (h.filter _).map _

/-! ## Feeding the runs to `reducef` -/

theorem feed_calls (reducef : ReduceFn) :
    ∀ (gs : List (String × List String)) (r : Run),
      ∃ n, (feed reducef gs r).calls = r.calls ++ gs.take n := by
  intro gs
  induction gs with
  | nil => intro r; exact ⟨0, by simp [feed]⟩
  | cons g gs ih =>
    intro r
    obtain ⟨k, vs⟩ := g
    unfold feed
    cases hr : reducef k vs with
    | none => exact ⟨1, by simp⟩
    | some output =>
      obtain ⟨n, hn⟩ := ih { r with ofile := r.ofile ++ [(k, output)], calls := r.calls ++ [(k, vs)] }
      exact ⟨n + 1, by simp [hn]⟩

theorem feed_calls_subset (reducef : ReduceFn) (gs : List (String × List String)) (r : Run) :
    ∀ c ∈ r.calls, c ∈ (feed reducef gs r).calls := by
  intro c hc
  obtain ⟨n, hn⟩ := feed_calls reducef gs r
  rw [hn]
  exact List.mem_append_left _ hc

theorem feed_ofile_mem (reducef : ReduceFn) :
    ∀ (gs : List (String × List String)) (r : Run) (rec : OutputRecord),
      rec ∈ (feed reducef gs r).ofile →
        rec ∈ r.ofile ∨ ∃ V, (rec.1, V) ∈ gs ∧ (rec.1, V) ∈ (feed reducef gs r).calls
          ∧ reducef rec.1 V = some rec.2 := by
  intro gs
  induction gs with
  | nil => intro r rec h; exact Or.inl h
  | cons g gs ih =>
    intro r rec h
    obtain ⟨k, vs⟩ := g
    unfold feed at h ⊢
    cases hr : reducef k vs with
    | none =>
      rw [hr] at h
      exact Or.inl h
    | some output =>
      rw [hr] at h
      simp only at h ⊢
      rcases ih _ rec h with h1 | ⟨V, hV, hcall, hred⟩
      · rcases List.mem_append.mp h1 with h2 | h2
        · exact Or.inl h2
        · right
          have : rec = (k, output) := by simpa using h2
          subst this
          refine ⟨vs, List.mem_cons_self _ _, ?_, hr⟩
          apply feed_calls_subset
          simp
      · exact Or.inr ⟨V, List.mem_cons_of_mem _ hV, hcall, hred⟩

theorem feed_ofile_keys (reducef : ReduceFn) :
    ∀ (gs : List (String × List String)) (r : Run),
      ∃ n, (feed reducef gs r).ofile.map Prod.fst
        = r.ofile.map Prod.fst ++ (gs.take n).map Prod.fst := by
  intro gs
  induction gs with
  | nil => intro r; exact ⟨0, by simp [feed]⟩
  | cons g gs ih =>
    intro r
    obtain ⟨k, vs⟩ := g
    unfold feed
    cases hr : reducef k vs with
    | none => exact ⟨0, by simp⟩
    | some output =>
      obtain ⟨n, hn⟩ := ih { r with ofile := r.ofile ++ [(k, output)], calls := r.calls ++ [(k, vs)] }
      exact ⟨n + 1, by simp [hn]⟩

theorem feed_total (reducef : String → List String → String) :
    ∀ (gs : List (String × List String)) (r : Run),
      feed (total reducef) gs r
        = { ofile := r.ofile ++ gs.map (fun g => (g.1, reducef g.1 g.2)),
            calls := r.calls ++ gs,
            abort := r.abort } := by
  intro gs
  induction gs with
  | nil => intro r; simp [feed]
  | cons g gs ih =>
    intro r
    obtain ⟨k, vs⟩ := g
    have hr : total reducef k vs = some (reducef k vs) := rfl
    unfold feed
    rw [hr]
    simp only
    rw [ih]
    simp

theorem feed_abort (reducef : ReduceFn) :
    ∀ (gs : List (String × List String)) (r : Run),
      (feed reducef gs r).abort = r.abort ∨ (feed reducef gs r).abort = some .reducePanic := by
  intro gs
  induction gs with
  | nil => intro r; exact Or.inl rfl
  | cons g gs ih =>
    intro r
    obtain ⟨k, vs⟩ := g
    unfold feed
    cases hr : reducef k vs with
    | none => exact Or.inr rfl
    | some output => exact ih _

/-- When the loop stops on a panic of `reducef`: the runs before the failing one were
reduced and written, the failing call is the last call, and nothing else was written. -/
theorem feed_panic (reducef : ReduceFn) :
    ∀ (gs : List (String × List String)) (r : Run),
      r.abort = none → (feed reducef gs r).abort = some .reducePanic →
        ∃ pre g post, gs = pre ++ g :: post ∧ reducef g.1 g.2 = none
          ∧ (feed reducef gs r).ofile.map Prod.fst = r.ofile.map Prod.fst ++ pre.map Prod.fst
          ∧ (feed reducef gs r).calls = r.calls ++ pre ++ [g] := by
  intro gs
  induction gs with
  | nil =>
    intro r h0 h
    unfold feed at h
    rw [h0] at h
    cases h
  | cons g gs ih =>
    intro r h0 h
    obtain ⟨k, vs⟩ := g
    unfold feed at h ⊢
    cases hr : reducef k vs with
    | none => exact ⟨[], (k, vs), gs, rfl, hr, by simp, by simp⟩
    | some output =>
      rw [hr] at h
      simp only at h ⊢
      obtain ⟨pre, g, post, hgs, hg, hof, hca⟩ :=
        ih { r with ofile := r.ofile ++ [(k, output)], calls := r.calls ++ [(k, vs)] } h0 h
      refine ⟨(k, vs) :: pre, g, post, by rw [hgs]; rfl, hg, ?_, ?_⟩
      · rw [hof]; simp
      · rw [hca]; simp

/-- A reduce loop over runs of which one makes the reduce function fail stops on a panic. -/
theorem feed_fail (reducef : ReduceFn) :
    ∀ (gs : List (String × List String)) (r : Run),
      (∃ g ∈ gs, reducef g.1 g.2 = none) →
        (feed reducef gs r).abort = some .reducePanic := by
  intro gs
  induction gs with
  | nil =>
    rintro r ⟨g, hg, _⟩
    cases hg
  | cons g0 gs ih =>
    rintro r ⟨g, hg, hfail⟩
    obtain ⟨k, vs⟩ := g0
    unfold feed
    cases hr : reducef k vs with
    | none => rfl
    | some output =>
      simp only
      rcases List.mem_cons.mp hg with rfl | hg'
      · simp only at hfail
        rw [hr] at hfail
        cases hfail
      · exact ih _ ⟨g, hg', hfail⟩

/-- When the loop stops on a panic of the reduce function: the runs split into those before
the failing one, which were all reduced and written in turn, the failing one, whose call is
the last call, and the rest, for which nothing was done. -/
theorem feed_panic_split (reducef : ReduceFn) :
    ∀ (gs : List (String × List String)) (r : Run),
      r.abort = none → (feed reducef gs r).abort = some .reducePanic →
        ∃ pre g post, gs = pre ++ g :: post ∧ reducef g.1 g.2 = none
          ∧ (∀ rec ∈ (feed reducef gs r).ofile,
              rec ∈ r.ofile ∨ ∃ p ∈ pre, p.1 = rec.1 ∧ reducef p.1 p.2 = some rec.2)
          ∧ (∀ p ∈ pre, ∃ output, reducef p.1 p.2 = some output)
          ∧ (feed reducef gs r).ofile.map Prod.fst = r.ofile.map Prod.fst ++ pre.map Prod.fst
          ∧ (feed reducef gs r).calls = r.calls ++ pre ++ [g] := by
  intro gs
  induction gs with
  | nil =>
    intro r h0 h
    unfold feed at h
    rw [h0] at h
    cases h
  | cons g gs ih =>
    intro r h0 h
    obtain ⟨k, vs⟩ := g
    unfold feed at h ⊢
    cases hr : reducef k vs with
    | none =>
      refine ⟨[], (k, vs), gs, rfl, hr, ?_, ?_, by simp, by simp⟩
      · intro rec hrec
        exact Or.inl hrec
      · intro p hp
        cases hp
    | some output =>
      rw [hr] at h
      simp only at h ⊢
      obtain ⟨pre, g, post, hgs, hg, hrec, hpre, hof, hca⟩ :=
        ih { r with ofile := r.ofile ++ [(k, output)], calls := r.calls ++ [(k, vs)] } h0 h
      refine ⟨(k, vs) :: pre, g, post, by rw [hgs]; rfl, hg, ?_, ?_, ?_, ?_⟩
      · intro rec hmem
        rcases hrec rec hmem with h1 | ⟨p, hp, hp1, hp2⟩
        · rcases List.mem_append.mp h1 with h2 | h2
          · exact Or.inl h2
          · right
            have : rec = (k, output) := by simpa using h2
            subst this
            exact ⟨(k, vs), List.mem_cons_self _ _, rfl, hr⟩
        · exact Or.inr ⟨p, List.mem_cons_of_mem _ hp, hp1, hp2⟩
      · intro p hp
        rcases List.mem_cons.mp hp with rfl | hp'
        · exact ⟨output, hr⟩
        · exact hpre p hp'
      · rw [hof]; simp
      · rw [hca]; simp

/-- Two reduce loops over the same keys whose calls give the same results write the same
records and stop in the same way. -/
theorem feed_congr (reducef : ReduceFn) (F F' : String → List String)
    (hF : ∀ k, reducef k (F k) = reducef k (F' k)) :
    ∀ (ks : List String) (r r' : Run), r.ofile = r'.ofile → r.abort = r'.abort →
      (feed reducef (ks.map (fun k => (k, F k))) r).ofile
          = (feed reducef (ks.map (fun k => (k, F' k))) r').ofile
        ∧ (feed reducef (ks.map (fun k => (k, F k))) r).abort
          = (feed reducef (ks.map (fun k => (k, F' k))) r').abort := by
  intro ks
  induction ks with
  | nil => intro r r' h1 h2; exact ⟨h1, h2⟩
  | cons k ks ih =>
    intro r r' h1 h2
    simp only [List.map_cons]
    unfold feed
    rw [← hF k]
    cases hr : reducef k (F k) with
    | none => exact ⟨h1, rfl⟩
    | some output =>
      simp only
      exact ih _ _ (by simp [h1]) h2

/-- The runs of a sorted slice, from their keys. -/
theorem groups_eq_map_keys (l : List KeyValue) (hp : l.Pairwise (fun x y => x.Key ≤ y.Key)) :
    groups l = ((groups l).map Prod.fst).map (fun k => (k, valuesOf k l)) := by
  rw [List.map_map]
  conv_lhs => rw [← List.map_id (groups l)]
  apply List.map_congr_left
  intro g hg
  have := groups_values l hp g hg
  simp only [id, Function.comp]
  rw [← this]

/-- A strictly ascending list of keys is determined by its elements. -/
theorem keys_unique (l l' : List String) (h : l.Pairwise (fun k k' => k < k'))
    (h' : l'.Pairwise (fun k k' => k < k')) (hmem : ∀ k, k ∈ l ↔ k ∈ l') : l = l' := by
  have hn : l.Nodup := h.imp (fun hlt => ne_of_lt hlt)
  have hn' : l'.Nodup := h'.imp (fun hlt => ne_of_lt hlt)
  exact List.eq_of_perm_of_sorted ((List.perm_ext_iff_of_nodup hn hn').mpr hmem) h h'

/-- Two sorted arrangements of the same records have the same runs of keys. -/
theorem groups_keys_perm (s s' : List KeyValue) (hp : s.Pairwise (fun x y => x.Key ≤ y.Key))
    (hp' : s'.Pairwise (fun x y => x.Key ≤ y.Key)) (h : s.Perm s') :
    (groups s).map Prod.fst = (groups s').map Prod.fst := by
  apply keys_unique _ _ (groups_keys_lt s hp) (groups_keys_lt s' hp')
  intro k
  rw [mem_groups_keys, mem_groups_keys]
  exact (h.map KeyValue.Key).mem_iff

/-- With a reduce function that does not look at the order of the values, the records
written depend only on the records sorted, not on how they were arranged. -/
theorem feed_groups_perm (reducef : ReduceFn)
    (hinv : ∀ k vs vs', List.Perm vs vs' → reducef k vs = reducef k vs')
    (s s' : List KeyValue) (hp : s.Pairwise (fun x y => x.Key ≤ y.Key))
    (hp' : s'.Pairwise (fun x y => x.Key ≤ y.Key)) (h : s.Perm s') (r : Run) :
    (feed reducef (groups s) r).ofile = (feed reducef (groups s') r).ofile
      ∧ (feed reducef (groups s) r).abort = (feed reducef (groups s') r).abort := by
  rw [groups_eq_map_keys s hp, groups_eq_map_keys s' hp', ← groups_keys_perm s s' hp hp' h]
  exact feed_congr reducef _ _ (fun k => hinv k _ _ (valuesOf_perm k h)) _ r r rfl rfl

/-! ## The map phase on lists -/

theorem mapStage_from (mapf : MapFn) :
    ∀ (units : List (String × String)) (st : MapState),
      units.foldl (main.mapStep mapf) st
        = { intermediate := st.intermediate ++ mapOutputs mapf units,
            calls := st.calls ++ units } := by
  intro units
  induction units with
  | nil => intro st; simp [mapOutputs]
  | cons u us ih =>
    intro st
    rw [List.foldl_cons, ih]
    simp [main.mapStep, mapOutputs]

theorem mapStage_eq (mapf : MapFn) (units : List (String × String)) :
    main.mapStage mapf units = { intermediate := mapOutputs mapf units, calls := units } := by
  unfold main.mapStage
  rw [mapStage_from]
  simp

theorem driver_eq (srt : Sorter) (mapf : MapFn) (reducef : ReduceFn)
    (units : List (String × String)) :
    main.driver srt mapf reducef units
      = feed reducef (groups (srt.sort (mapOutputs mapf units)))
          { ofile := [], calls := [], abort := none } := by
  unfold main.driver
  rw [mapStage_eq, reduceStage_eq]

/-! ## Word count: the words of a text -/

theorem letterRuns_nil (L : Char → Bool) : letterRuns L [] = [] := by
  rw [letterRuns]
  simp

theorem letterRuns_cons_pos (L : Char → Bool) (c : Char) (cs : List Char) (h : L c = true) :
    letterRuns L (c :: cs) = (c :: cs.takeWhile L) :: letterRuns L (cs.dropWhile L) := by
  have hd : List.dropWhile (fun c => !L c) (c :: cs) = c :: cs := by simp [h]
  rw [letterRuns]
  split
  · rename_i heq
    rw [hd] at heq
    cases heq
  · rename_i c1 t heq
    rw [hd] at heq
    cases heq
    rfl

theorem letterRuns_cons_neg (L : Char → Bool) (c : Char) (cs : List Char) (h : L c = false) :
    letterRuns L (c :: cs) = letterRuns L cs := by
  have hd : List.dropWhile (fun c => !L c) (c :: cs) = List.dropWhile (fun c => !L c) cs := by
    simp [h]
  rw [letterRuns]
  conv_rhs => rw [letterRuns]
  split
  · rename_i heq
    rw [hd] at heq
    split
    · rfl
    · rename_i c2 t2 heq2
      rw [heq] at heq2
      cases heq2
  · rename_i c1 t heq
    rw [hd] at heq
    split
    · rename_i heq2
      rw [heq] at heq2
      cases heq2
    · rename_i c2 t2 heq2
      rw [heq] at heq2
      cases heq2
      rfl

/-- The scan of `strings.FieldsFunc` with the separator test of `Map`, between fields and
inside a field. -/
theorem FieldsFunc_scan_eq (L : Char → Bool) :
    ∀ cs : List Char,
      (∀ spans, strings.FieldsFunc.scan (fun r => !L r) cs none spans
          = spans ++ (letterRuns L cs).map String.mk)
      ∧ (∀ w spans, strings.FieldsFunc.scan (fun r => !L r) cs (some w) spans
          = spans ++ String.mk (w ++ cs.takeWhile L)
              :: (letterRuns L (cs.dropWhile L)).map String.mk) := by
  intro cs
  induction cs with
  | nil =>
    refine ⟨?_, ?_⟩
    · intro spans
      simp [strings.FieldsFunc.scan, letterRuns_nil]
    · intro w spans
      simp [strings.FieldsFunc.scan, letterRuns_nil]
  | cons c cs ih =>
    obtain ⟨ih1, ih2⟩ := ih
    by_cases h : L c = true
    · refine ⟨?_, ?_⟩
      · intro spans
        rw [strings.FieldsFunc.scan]
        simp only [h, Bool.not_true, Bool.false_eq_true, if_false]
        rw [ih2, letterRuns_cons_pos L c cs h]
        simp
      · intro w spans
        rw [strings.FieldsFunc.scan]
        simp only [h, Bool.not_true, Bool.false_eq_true, if_false]
        rw [ih2, List.takeWhile_cons_of_pos h, List.dropWhile_cons_of_pos h]
        simp
    · have h' : L c = false := by simpa using h
      refine ⟨?_, ?_⟩
      · intro spans
        rw [strings.FieldsFunc.scan]
        simp only [h', Bool.not_false, if_true]
        rw [ih1, letterRuns_cons_neg L c cs h']
      · intro w spans
        rw [strings.FieldsFunc.scan]
        simp only [h', Bool.not_false, if_true]
        rw [ih1, List.takeWhile_cons_of_neg h, List.dropWhile_cons_of_neg h,
          letterRuns_cons_neg L c cs h']
        simp

theorem foldl_append_singleton {α β : Type} (f : α → β) :
    ∀ (ws : List α) (acc : List β),
      ws.foldl (fun kva w => kva ++ [f w]) acc = acc ++ ws.map f := by
  intro ws
  induction ws with
  | nil => intro acc; simp
  | cons w ws ih => intro acc; rw [List.foldl_cons, ih]; simp

/-- The output of `Map`: one record with value "1" for each maximal run of letters. -/
theorem Map_eq (L : Char → Bool) (filename contents : String) :
    wc.Map L filename contents
      = (letterRuns L contents.toList).map (fun w => KeyValue.mk (String.mk w) "1") := by
  unfold wc.Map strings.FieldsFunc
  simp only
  rw [foldl_append_singleton (fun w => KeyValue.mk w "1"), (FieldsFunc_scan_eq L _).1]
  simp

theorem letterRuns_letters (L : Char → Bool) (n : Nat) :
    ∀ s : List Char, s.length ≤ n →
      ∀ w ∈ letterRuns L s, w ≠ [] ∧ ∀ c ∈ w, L c = true := by
  induction n with
  | zero =>
    intro s hs w hw
    have : s = [] := List.length_eq_zero.mp (Nat.le_zero.mp hs)
    subst this
    rw [letterRuns_nil] at hw
    cases hw
  | succ n ih =>
    intro s hs w hw
    cases s with
    | nil => rw [letterRuns_nil] at hw; cases hw
    | cons c cs =>
      simp only [List.length_cons] at hs
      by_cases h : L c = true
      · rw [letterRuns_cons_pos L c cs h] at hw
        rcases List.mem_cons.mp hw with rfl | hw
        · refine ⟨List.cons_ne_nil _ _, ?_⟩
          intro d hd
          rcases List.mem_cons.mp hd with rfl | hd
          · exact h
          · exact List.mem_takeWhile_imp hd
        · have hl := List.Sublist.length_le (List.dropWhile_sublist (l := cs) L)
          exact ih _ (by omega) w hw
      · have h' : L c = false := by simpa using h
        rw [letterRuns_cons_neg L c cs h'] at hw
        exact ih cs (by omega) w hw

/-- The words depend on the letter test only through the characters of the text. -/
theorem FieldsFunc_scan_congr (f g : Char → Bool) :
    ∀ (cs : List Char), (∀ c ∈ cs, f c = g c) → ∀ start spans,
      strings.FieldsFunc.scan f cs start spans = strings.FieldsFunc.scan g cs start spans := by
  intro cs
  induction cs with
  | nil => intro _ start spans; cases start <;> simp [strings.FieldsFunc.scan]
  | cons c cs ih =>
    intro h start spans
    have hc : f c = g c := h c (List.mem_cons_self _ _)
    have ih' := ih (fun d hd => h d (List.mem_cons_of_mem _ hd))
    cases start <;>
      (rw [strings.FieldsFunc.scan, strings.FieldsFunc.scan, hc]; cases g c <;> simp [ih'])

theorem Map_congr (L L' : Char → Bool) (filename contents : String)
    (h : ∀ c ∈ contents.toList, L c = L' c) :
    wc.Map L filename contents = wc.Map L' filename contents := by
  unfold wc.Map strings.FieldsFunc
  simp only
  rw [FieldsFunc_scan_congr (fun r => !L r) (fun r => !L' r) contents.toList
    (fun c hc => by simp [h c hc])]

/-! ## Word count: decimal numerals -/

theorem digitChar_isDigit (m : Nat) (h : m < 10) : (Nat.digitChar m).isDigit = true := by
  interval_cases m <;> decide

theorem digitChar_value (m : Nat) (h : m < 10) : (Nat.digitChar m).toNat - 48 = m := by
  interval_cases m <;> decide

theorem digitChar_ne_zero (m : Nat) (h : m < 10) (h0 : m ≠ 0) : Nat.digitChar m ≠ '0' := by
  interval_cases m <;> first | exact absurd rfl h0 | decide

theorem toDigitsCore_append (fuel : Nat) :
    ∀ (n : Nat) (ds : List Char),
      Nat.toDigitsCore 10 fuel n ds = Nat.toDigitsCore 10 fuel n [] ++ ds := by
  induction fuel with
  | zero => intro n ds; simp [Nat.toDigitsCore]
  | succ fuel ih =>
    intro n ds
    simp only [Nat.toDigitsCore]
    by_cases h : n / 10 = 0
    · simp [h]
    · simp only [h, if_false]
      rw [ih (n / 10) (Nat.digitChar (n % 10) :: ds), ih (n / 10) [Nat.digitChar (n % 10)]]
      simp

theorem decimalValue_append (X : List Char) (d : Char) :
    decimalValue (X ++ [d]) = decimalValue X * 10 + (d.toNat - 48) := by
  simp [decimalValue, List.foldl_append]

/-- The digits that `Nat.repr` produces are the base-10 representation of the number. -/
theorem toDigitsCore_spec (fuel : Nat) :
    ∀ n : Nat, n < fuel →
      Nat.toDigitsCore 10 fuel n [] ≠ []
        ∧ (∀ c ∈ Nat.toDigitsCore 10 fuel n [], c.isDigit = true)
        ∧ decimalValue (Nat.toDigitsCore 10 fuel n []) = n
        ∧ (n ≠ 0 → (Nat.toDigitsCore 10 fuel n []).head? ≠ some '0')
        ∧ (n = 0 → Nat.toDigitsCore 10 fuel n [] = ['0']) := by
  induction fuel with
  | zero => intro n h; omega
  | succ fuel ih =>
    intro n hn
    have hmod : n % 10 < 10 := Nat.mod_lt _ (by decide)
    simp only [Nat.toDigitsCore]
    by_cases h : n / 10 = 0
    · have hlt : n < 10 := by omega
      have hnm : n % 10 = n := Nat.mod_eq_of_lt hlt
      simp only [h, if_true, hnm]
      refine ⟨List.cons_ne_nil _ _, ?_, ?_, ?_, ?_⟩
      · intro c hc
        rw [List.mem_singleton] at hc
        rw [hc]
        exact digitChar_isDigit n hlt
      · simp [decimalValue, digitChar_value n hlt]
      · intro h0
        simpa using digitChar_ne_zero n hlt h0
      · intro h0
        subst h0
        rfl
    · simp only [h, if_false]
      rw [toDigitsCore_append]
      have hlt : n / 10 < fuel := by omega
      obtain ⟨i1, i2, i3, i4, _⟩ := ih (n / 10) hlt
      refine ⟨by simp, ?_, ?_, ?_, ?_⟩
      · intro c hc
        rcases List.mem_append.mp hc with hc | hc
        · exact i2 c hc
        · rw [List.mem_singleton] at hc
          rw [hc]
          exact digitChar_isDigit _ hmod
      · rw [decimalValue_append, i3, digitChar_value _ hmod]
        omega
      · intro _
        cases hX : Nat.toDigitsCore 10 fuel (n / 10) [] with
        | nil => exact absurd hX i1
        | cons x xs =>
          have := i4 h
          rw [hX] at this
          simpa using this
      · intro h0
        subst h0
        simp at h

theorem repr_isDecimalOf (n : Nat) : IsDecimalOf (Nat.repr n) n := by
  obtain ⟨h1, h2, h3, h4, h5⟩ := toDigitsCore_spec (n + 1) n (Nat.lt_succ_self n)
  have hl : (Nat.repr n).toList = Nat.toDigitsCore 10 (n + 1) n [] := rfl
  unfold IsDecimalOf
  rw [hl]
  refine ⟨h1, h2, ?_, h3⟩
  intro hh
  by_cases h0 : n = 0
  · exact h5 h0
  · exact absurd hh (h4 h0)

theorem Reduce_eq (key : String) (values : List String) :
    wc.Reduce key values = Nat.repr values.length := rfl

/-! ## The order of strings, on bytes -/

theorem utf8EncodeChar_lex (c d : Nat) (h : c < d) (X Y : List Nat) :
    List.Lex (fun a b => a < b) (utf8EncodeChar c ++ X) (utf8EncodeChar d ++ Y) := by
  unfold utf8EncodeChar
  split_ifs <;> simp only [List.cons_append, List.nil_append] <;>
    first
    | omega
    | exact List.Lex.rel (by omega)
    | (by_cases h1 : c / 64 = d / 64
       · rw [h1]; exact List.Lex.cons (List.Lex.rel (by omega))
       · exact List.Lex.rel (by omega))
    | (by_cases h1 : c / 4096 = d / 4096
       · rw [h1]
         by_cases h2 : c / 64 % 64 = d / 64 % 64
         · rw [h2]; exact List.Lex.cons (List.Lex.cons (List.Lex.rel (by omega)))
         · exact List.Lex.cons (List.Lex.rel (by omega))
       · exact List.Lex.rel (by omega))
    | (by_cases h0 : c / 262144 = d / 262144
       · rw [h0]
         by_cases h1 : c / 4096 % 64 = d / 4096 % 64
         · rw [h1]
           by_cases h2 : c / 64 % 64 = d / 64 % 64
           · rw [h2]; exact List.Lex.cons (List.Lex.cons (List.Lex.cons (List.Lex.rel (by omega))))
           · exact List.Lex.cons (List.Lex.cons (List.Lex.rel (by omega)))
         · exact List.Lex.cons (List.Lex.rel (by omega))
       · exact List.Lex.rel (by omega))

theorem utf8EncodeChar_ne_nil (c : Nat) : utf8EncodeChar c ≠ [] := by
  unfold utf8EncodeChar
  split_ifs <;> simp

theorem flatMap_utf8_lex (cs ds : List Char) (h : List.Lex (fun a b => a < b) cs ds) :
    List.Lex (fun a b => a < b) (cs.flatMap (fun c => utf8EncodeChar c.toNat))
      (ds.flatMap (fun c => utf8EncodeChar c.toNat)) := by
  induction h with
  | nil =>
    rename_i d ds
    simp only [List.flatMap_nil, List.flatMap_cons]
    cases hd : utf8EncodeChar d.toNat with
    | nil => exact absurd hd (utf8EncodeChar_ne_nil _)
    | cons b bs => exact List.Lex.nil
  | cons _ ih =>
    simp only [List.flatMap_cons]
    exact List.Lex.append_left _ ih _
  | rel hlt =>
    simp only [List.flatMap_cons]
    exact utf8EncodeChar_lex _ _ (by simpa [Char.lt_iff_val_lt_val, Char.toNat] using hlt) _ _

/-- A string that is smaller than another in the order of strings is smaller byte by
byte. -/
theorem utf8Bytes_lt (s t : String) (h : s < t) :
    List.Lex (fun a b => a < b) (utf8Bytes s) (utf8Bytes t) :=
  flatMap_utf8_lex _ _ (String.lt_iff_toList_lt.mp h)

/-! ## The driver on lists -/

theorem driver_total_eq (srt : Sorter) (mapf : MapFn) (reducef : String → List String → String)
    (units : List (String × String)) :
    main.driver srt mapf (total reducef) units
      = { ofile := (groups (srt.sort (mapOutputs mapf units))).map
            (fun g => (g.1, reducef g.1 g.2)),
          calls := groups (srt.sort (mapOutputs mapf units)),
          abort := none } := by
  rw [driver_eq, feed_total]
  simp

/-- With a reduce function that does not look at the order of the values, the records
written depend only on the intermediate records, not on their arrangement or on the
sorter. -/
theorem driver_ofile_eq_of_perm (srt srt' : Sorter) (mapf mapf' : MapFn) (reducef : ReduceFn)
    (hinv : ∀ k vs vs', List.Perm vs vs' → reducef k vs = reducef k vs')
    (units units' : List (String × String))
    (h : List.Perm (mapOutputs mapf units) (mapOutputs mapf' units')) :
    (main.driver srt mapf reducef units).ofile = (main.driver srt' mapf' reducef units').ofile
      ∧ (main.driver srt mapf reducef units).abort
          = (main.driver srt' mapf' reducef units').abort := by
  rw [driver_eq, driver_eq]
  exact feed_groups_perm reducef hinv _ _ (srt.pairwise_le _) (srt'.pairwise_le _)
    (((srt.perm _).trans h).trans (srt'.perm _).symm) _

theorem Reduce_perm (key : String) (values values' : List String)
    (h : List.Perm values values') : wc.Reduce key values = wc.Reduce key values' := by
  unfold wc.Reduce
  rw [h.length_eq]

theorem total_Reduce_perm (k : String) (vs vs' : List String) (h : List.Perm vs vs') :
    total wc.Reduce k vs = total wc.Reduce k vs' := by
  unfold total
  rw [Reduce_perm k vs vs' h]

theorem mapOutputs_Map (L : Char → Bool) (units : List (String × String)) :
    mapOutputs (wc.Map L) units = (wordsOf L units).map (fun w => KeyValue.mk w "1") := by
  unfold mapOutputs wordsOf
  rw [List.map_flatMap]
  congr 1
  funext u
  rw [Map_eq, List.map_map]
  rfl

theorem valuesOf_words_length (K : String) (ws : List String) :
    (valuesOf K (ws.map (fun w => KeyValue.mk w "1"))).length = ws.count K := by
  induction ws with
  | nil => rfl
  | cons w ws ih =>
    unfold valuesOf at ih ⊢
    rw [List.map_cons, List.count_cons]
    by_cases h : w = K
    · rw [List.filter_cons_of_pos (by simpa using h), List.map_cons, List.length_cons, ih]
      simp [h]
    · rw [List.filter_cons_of_neg (by simpa using h), ih]
      simp [h]

theorem Map_filename (L : Char → Bool) (filename filename' contents : String) :
    wc.Map L filename' contents = wc.Map L filename contents := by
  rw [Map_eq, Map_eq]

/-! ## The claims -/

/-- C1: for every map function, reduce function and list of input units, every record
(K, v) that the driver writes is the result `v = reducef(K, V)` of a call that the driver made
to the reduce function on K and a list V whose elements are, up to their order, exactly the
values of all records with key K in the concatenation of the map outputs of the units. -/
theorem C1_record_is_reduce_of_values (srt : Sorter) (mapf : MapFn) (reducef : ReduceFn)
    (units : List (String × String)) :
    ∀ rec ∈ (main.driver srt mapf reducef units).ofile,
      ∃ V : List String, (rec.1, V) ∈ (main.driver srt mapf reducef units).calls
        ∧ reducef rec.1 V = some rec.2
        ∧ List.Perm V
            (valuesOf rec.1 ((units.map (fun u => mapf u.1 u.2)).flatten)) := by
  intro rec hrec
  rw [driver_eq] at hrec ⊢
  rcases feed_ofile_mem reducef _ _ rec hrec with h | ⟨V, hV, hcall, hred⟩
  · cases h
  · refine ⟨V, hcall, hred, ?_⟩
    have hv := groups_values _ (srt.pairwise_le (mapOutputs mapf units)) _ hV
    simp only at hv
    rw [hv]
    exact valuesOf_perm rec.1 (srt.perm (mapOutputs mapf units))

/-- An instance of C1: the record ("the", "2") of the word count of "the cat the dog". -/
theorem C1_witness :
    ∃ V : List String,
      ("the", V) ∈ (main.driver shellSorter (wc.Map Char.isAlpha) (total wc.Reduce)
          [("doc1.txt", "the cat the dog")]).calls
        ∧ total wc.Reduce "the" V = some "2"
        ∧ List.Perm V
            (valuesOf "the"
              (([("doc1.txt", "the cat the dog")].map
                (fun u => wc.Map Char.isAlpha u.1 u.2)).flatten)) :=
  C1_record_is_reduce_of_values shellSorter (wc.Map Char.isAlpha) (total wc.Reduce)
    [("doc1.txt", "the cat the dog")] ("the", "2") (by decide)

/-- C2: for every map function, reduce function (one that returns on every call) and list
of input units, the run is not aborted, the list of keys of the records written holds each
key of the intermediate collection exactly once and no other key, and the reduce function
was called on exactly these keys, once each and in this order. -/
theorem C2_each_key_once (srt : Sorter) (mapf : MapFn)
    (reducef : String → List String → String) (units : List (String × String)) :
    (main.driver srt mapf (total reducef) units).abort = none
      ∧ (∀ K : String,
          ((main.driver srt mapf (total reducef) units).ofile.map Prod.fst).count K
            = if K ∈ (main.mapStage mapf units).intermediate.map KeyValue.Key then 1 else 0)
      ∧ (main.driver srt mapf (total reducef) units).calls.map Prod.fst
          = (main.driver srt mapf (total reducef) units).ofile.map Prod.fst := by
  rw [driver_eq, feed_total, mapStage_eq]
  simp only [List.nil_append, List.map_map]
  have hkeys : (List.map (Prod.fst ∘ fun g : String × List String => (g.1, reducef g.1 g.2))
      (groups (srt.sort (mapOutputs mapf units))))
        = (groups (srt.sort (mapOutputs mapf units))).map Prod.fst := by
    apply List.map_congr_left
    intro g _
    rfl
  rw [hkeys]
  refine ⟨trivial, ?_, rfl⟩
  intro K
  have hlt := groups_keys_lt _ (srt.pairwise_le (mapOutputs mapf units))
  have hnd : ((groups (srt.sort (mapOutputs mapf units))).map Prod.fst).Nodup :=
    hlt.imp (fun h => ne_of_lt h)
  have hmem : K ∈ (groups (srt.sort (mapOutputs mapf units))).map Prod.fst
      ↔ K ∈ (mapOutputs mapf units).map KeyValue.Key := by
    rw [mem_groups_keys]
    exact ((srt.perm (mapOutputs mapf units)).map KeyValue.Key).mem_iff
  by_cases hK : K ∈ (mapOutputs mapf units).map KeyValue.Key
  · rw [if_pos hK]
    exact List.count_eq_one_of_mem hnd (hmem.mpr hK)
  · rw [if_neg hK]
    exact List.count_eq_zero_of_not_mem (fun h => hK (hmem.mp h))

/-- C3: for every intermediate collection (and every reduce function, also one that makes
the run abort), the keys of the records written, in the order in which they are written,
are strictly ascending in the lexicographic order of strings, on their code points and on
their bytes: each key written is strictly less than every key written after it; hence the
keys are without duplicates. -/
theorem C3_output_keys_strictly_ascending (srt : Sorter) (reducef : ReduceFn)
    (intermediate : List KeyValue) :
    ((main.reduceStage srt reducef intermediate).ofile.map Prod.fst).Pairwise
        (fun k k' => List.Lex (fun c d => c < d) k.toList k'.toList)
      ∧ ((main.reduceStage srt reducef intermediate).ofile.map Prod.fst).Pairwise
          (fun k k' => List.Lex (fun a b => a < b) (utf8Bytes k) (utf8Bytes k'))
      ∧ ((main.reduceStage srt reducef intermediate).ofile.map Prod.fst).Nodup := by
  rw [reduceStage_eq]
  obtain ⟨n, hn⟩ := feed_ofile_keys reducef (groups (srt.sort intermediate))
    { ofile := [], calls := [], abort := none }
  rw [hn]
  simp only [List.map_nil, List.nil_append]
  have hlt := groups_keys_lt _ (srt.pairwise_le intermediate)
  have hsub : List.Sublist (((groups (srt.sort intermediate)).take n).map Prod.fst)
      ((groups (srt.sort intermediate)).map Prod.fst) :=
    (List.take_sublist _ _).map _
  have hp := hlt.sublist hsub
  exact ⟨hp.imp (fun h => String.lt_iff_toList_lt.mp h),
    hp.imp (fun h => utf8Bytes_lt _ _ h), hp.imp (fun h => ne_of_lt h)⟩

/-- C8: for every map function and list of input units (name, contents), the intermediate
collection that the map loop builds is the concatenation, in input order, of
`mapf(name, contents)` for each unit, and the map function was called once on each unit, in
input order. -/
theorem C8_intermediate_is_concatenation (mapf : MapFn) (units : List (String × String)) :
    (main.mapStage mapf units).intermediate = (units.map (fun u => mapf u.1 u.2)).flatten
      ∧ (main.mapStage mapf units).calls = units := by
  rw [mapStage_eq]
  exact ⟨rfl, rfl⟩

/-- C4: with the word-count `Map` and `Reduce`, for every list of input units the run is
not aborted, the records written have strictly ascending keys, the keys are exactly the
words (maximal runs of letters) that occur in the contents of the units, and the value of
the record of a word is the base-10 representation of the number of occurrences of the word
in all the units.  With a letter test that agrees with the ASCII letters on ASCII, the unit
("doc1.txt", "the cat the dog") gives the lines `cat 1`, `dog 1`, `the 2` in this order, and
two units that each hold only the word "a" give the single line `a 2`. -/
theorem C4_word_count (srt : Sorter) (IsLetter : Char → Bool) (units : List (String × String)) :
    (main.driver srt (wc.Map IsLetter) (total wc.Reduce) units).abort = none
      ∧ ((main.driver srt (wc.Map IsLetter) (total wc.Reduce) units).ofile.map Prod.fst).Pairwise
          (fun k k' => k < k')
      ∧ (∀ w : String,
          w ∈ (main.driver srt (wc.Map IsLetter) (total wc.Reduce) units).ofile.map Prod.fst
            ↔ w ∈ wordsOf IsLetter units)
      ∧ (∀ rec ∈ (main.driver srt (wc.Map IsLetter) (total wc.Reduce) units).ofile,
          IsDecimalOf rec.2 ((wordsOf IsLetter units).count rec.1))
      ∧ ((∀ c : Char, c.toNat < 128 → IsLetter c = c.isAlpha) →
          (main.driver srt (wc.Map IsLetter) (total wc.Reduce)
              [("doc1.txt", "the cat the dog")]).ofile = [("cat", "1"), ("dog", "1"), ("the", "2")]
            ∧ fileText (main.driver srt (wc.Map IsLetter) (total wc.Reduce)
                [("doc1.txt", "the cat the dog")]).ofile = "cat 1\ndog 1\nthe 2\n"
            ∧ ∀ name1 name2 : String,
                (main.driver srt (wc.Map IsLetter) (total wc.Reduce)
                    [(name1, "a"), (name2, "a")]).ofile = [("a", "2")]
                  ∧ fileText (main.driver srt (wc.Map IsLetter) (total wc.Reduce)
                      [(name1, "a"), (name2, "a")]).ofile = "a 2\n") := by
  refine ⟨?_, ?_, ?_, ?_, ?_⟩
  · rw [driver_total_eq]
  · rw [driver_total_eq]
    simp only [List.map_map]
    exact groups_keys_lt _ (srt.pairwise_le _)
  · intro w
    rw [driver_total_eq]
    simp only [List.map_map]
    have : (groups (srt.sort (mapOutputs (wc.Map IsLetter) units))).map
        (Prod.fst ∘ fun g : String × List String => (g.1, wc.Reduce g.1 g.2))
          = (groups (srt.sort (mapOutputs (wc.Map IsLetter) units))).map Prod.fst :=
      List.map_congr_left (fun g _ => rfl)
    rw [this, mem_groups_keys,
      ((srt.perm (mapOutputs (wc.Map IsLetter) units)).map KeyValue.Key).mem_iff,
      mapOutputs_Map, List.map_map]
    simp
  · intro rec hrec
    rw [driver_total_eq] at hrec
    simp only [List.mem_map] at hrec
    obtain ⟨g, hg, rfl⟩ := hrec
    have hv := groups_values _ (srt.pairwise_le (mapOutputs (wc.Map IsLetter) units)) g hg
    have hlen : g.2.length = (wordsOf IsLetter units).count g.1 := by
      rw [hv, ← valuesOf_words_length g.1 (wordsOf IsLetter units), ← mapOutputs_Map]
      exact (valuesOf_perm g.1 (srt.perm (mapOutputs (wc.Map IsLetter) units))).length_eq
    simp only
    rw [Reduce_eq, hlen]
    exact repr_isDecimalOf _
  · intro hL
    have hascii1 : ∀ c ∈ "the cat the dog".toList, c.toNat < 128 := by decide
    have hascii2 : ∀ c ∈ "a".toList, c.toNat < 128 := by decide
    have h1 : (main.driver srt (wc.Map IsLetter) (total wc.Reduce)
        [("doc1.txt", "the cat the dog")]).ofile = [("cat", "1"), ("dog", "1"), ("the", "2")] := by
      have hm : mapOutputs (wc.Map IsLetter) [("doc1.txt", "the cat the dog")]
          = mapOutputs (wc.Map Char.isAlpha) [("doc1.txt", "the cat the dog")] := by
        simp only [mapOutputs, List.flatMap_cons, List.flatMap_nil]
        rw [Map_congr IsLetter Char.isAlpha _ _ (fun c hc => hL c (hascii1 c hc))]
      rw [(driver_ofile_eq_of_perm srt stableSorter _ _ (total wc.Reduce) total_Reduce_perm
        _ _ (List.Perm.of_eq hm)).1]
      decide
    have h2 : ∀ name1 name2 : String,
        (main.driver srt (wc.Map IsLetter) (total wc.Reduce)
          [(name1, "a"), (name2, "a")]).ofile = [("a", "2")] := by
      intro name1 name2
      have hm : mapOutputs (wc.Map IsLetter) [(name1, "a"), (name2, "a")]
          = mapOutputs (wc.Map Char.isAlpha) [("", "a"), ("", "a")] := by
        simp only [mapOutputs, List.flatMap_cons, List.flatMap_nil]
        rw [Map_filename IsLetter "" name1, Map_filename IsLetter "" name2,
          Map_congr IsLetter Char.isAlpha _ _ (fun c hc => hL c (hascii2 c hc))]
      rw [(driver_ofile_eq_of_perm srt stableSorter _ _ (total wc.Reduce) total_Reduce_perm
        _ _ (List.Perm.of_eq hm)).1]
      decide
    refine ⟨h1, ?_, ?_⟩
    · rw [h1]
      decide
    · intro name1 name2
      refine ⟨h2 name1 name2, ?_⟩
      rw [h2 name1 name2]
      decide

/-- An instance of C4: the two scenarios with the ASCII letter test and the sorter of the
older Go releases. -/
theorem C4_witness :
    (main.driver shellSorter (wc.Map Char.isAlpha) (total wc.Reduce)
        [("doc1.txt", "the cat the dog")]).ofile = [("cat", "1"), ("dog", "1"), ("the", "2")]
      ∧ fileText (main.driver shellSorter (wc.Map Char.isAlpha) (total wc.Reduce)
          [("doc1.txt", "the cat the dog")]).ofile = "cat 1\ndog 1\nthe 2\n"
      ∧ ∀ name1 name2 : String,
          (main.driver shellSorter (wc.Map Char.isAlpha) (total wc.Reduce)
              [(name1, "a"), (name2, "a")]).ofile = [("a", "2")]
            ∧ fileText (main.driver shellSorter (wc.Map Char.isAlpha) (total wc.Reduce)
                [(name1, "a"), (name2, "a")]).ofile = "a 2\n" :=
  (C4_word_count shellSorter Char.isAlpha []).2.2.2.2 (fun _ _ => rfl)

/-- C5, as stated, fails: with the sorter of the Go releases up to 1.18, on seven records
of which the first six have key "b" and values "1" to "6" and the last has key "a", the
values list passed to the reduce function for "b" is 2, 3, 4, 5, 6, 1, while the records
with key "b" stand in the order 1, 2, 3, 4, 5, 6 in the collection before sorting. -/
theorem C5_counterexample :
    (main.reduceStage shellSorter (total wc.Reduce)
        [⟨"b", "1"⟩, ⟨"b", "2"⟩, ⟨"b", "3"⟩, ⟨"b", "4"⟩, ⟨"b", "5"⟩, ⟨"b", "6"⟩, ⟨"a", "7"⟩]).calls
        = [("a", ["7"]), ("b", ["2", "3", "4", "5", "6", "1"])]
      ∧ valuesOf "b"
          [⟨"b", "1"⟩, ⟨"b", "2"⟩, ⟨"b", "3"⟩, ⟨"b", "4"⟩, ⟨"b", "5"⟩, ⟨"b", "6"⟩, ⟨"a", "7"⟩]
        = ["1", "2", "3", "4", "5", "6"] := by
  decide

/-- C5, amended: for every intermediate collection and every key K, the values list passed
to the reduce function for K lists the values of the records with key K in the order in
which these records stand in the collection after `sort.Sort`; it is a permutation of the
values of the records with key K in the collection before sorting. -/
theorem C5_values_in_sorted_order (srt : Sorter) (reducef : ReduceFn)
    (intermediate : List KeyValue) :
    ∀ call ∈ (main.reduceStage srt reducef intermediate).calls,
      call.2 = valuesOf call.1 (srt.sort intermediate)
        ∧ List.Perm call.2 (valuesOf call.1 intermediate) := by
  intro call hcall
  rw [reduceStage_eq] at hcall
  obtain ⟨n, hn⟩ := feed_calls reducef (groups (srt.sort intermediate))
    { ofile := [], calls := [], abort := none }
  rw [hn] at hcall
  simp only [List.nil_append] at hcall
  have hmem : call ∈ groups (srt.sort intermediate) := (List.take_sublist _ _).subset hcall
  have hv := groups_values _ (srt.pairwise_le intermediate) call hmem
  refine ⟨hv, ?_⟩
  rw [hv]
  exact valuesOf_perm call.1 (srt.perm intermediate)

/-- An instance of the amended C5: the call for "b" in the run of the counterexample. -/
theorem C5_witness :
    ["2", "3", "4", "5", "6", "1"]
        = valuesOf "b" (shellSorter.sort
            [⟨"b", "1"⟩, ⟨"b", "2"⟩, ⟨"b", "3"⟩, ⟨"b", "4"⟩, ⟨"b", "5"⟩, ⟨"b", "6"⟩, ⟨"a", "7"⟩])
      ∧ List.Perm ["2", "3", "4", "5", "6", "1"]
          (valuesOf "b"
            [⟨"b", "1"⟩, ⟨"b", "2"⟩, ⟨"b", "3"⟩, ⟨"b", "4"⟩, ⟨"b", "5"⟩, ⟨"b", "6"⟩, ⟨"a", "7"⟩]) :=
  C5_values_in_sorted_order shellSorter (total wc.Reduce)
    [⟨"b", "1"⟩, ⟨"b", "2"⟩, ⟨"b", "3"⟩, ⟨"b", "4"⟩, ⟨"b", "5"⟩, ⟨"b", "6"⟩, ⟨"a", "7"⟩]
    ("b", ["2", "3", "4", "5", "6", "1"]) (by decide)

/-- C6, as stated, fails: with a reduce function that panics on the key "b" and counts
otherwise, on the records ("a", "x") and ("b", "y") the run aborts on the panic, and the
line of the smaller key "a" has been written to `mr-out-0` before it. -/
theorem C6_counterexample :
    (main.reduceStage stableSorter
        (fun key values => if key = "b" then none else some (wc.Reduce key values))
        [⟨"a", "x"⟩, ⟨"b", "y"⟩]).abort = some Abort.reducePanic
      ∧ fileText (main.reduceStage stableSorter
          (fun key values => if key = "b" then none else some (wc.Reduce key values))
          [⟨"a", "x"⟩, ⟨"b", "y"⟩]).ofile = "a 1\n" := by
  decide

/-- C6, amended: for every intermediate collection, if the reduce function fails for a key
of the collection (on the values of that key in the sorted collection), then the run aborts
on a panic, at the call for the smallest key `K0` for which it fails, and nothing more is
written: that call is the last call made, and the records written to `mr-out-0` before the
abort are those of the keys of the collection that are smaller than `K0`, one for each such
key, each with the result of the reduce function on that key; no record is written for `K0`
or for a greater key. -/
theorem C6_failure_aborts_after_smaller_keys (srt : Sorter) (reducef : ReduceFn)
    (intermediate : List KeyValue) (K : String) (hK : K ∈ intermediate.map KeyValue.Key)
    (hfail : reducef K (valuesOf K (srt.sort intermediate)) = none) :
    (main.reduceStage srt reducef intermediate).abort = some Abort.reducePanic
      ∧ ∃ K0 : String,
          K0 ≤ K ∧ K0 ∈ intermediate.map KeyValue.Key
            ∧ reducef K0 (valuesOf K0 (srt.sort intermediate)) = none
            ∧ (∀ K' ∈ intermediate.map KeyValue.Key, K' < K0 →
                ∃ v, reducef K' (valuesOf K' (srt.sort intermediate)) = some v)
            ∧ (main.reduceStage srt reducef intermediate).calls.getLast?
                = some (K0, valuesOf K0 (srt.sort intermediate))
            ∧ ((main.reduceStage srt reducef intermediate).ofile.map Prod.fst).Nodup
            ∧ (∀ K' : String,
                K' ∈ (main.reduceStage srt reducef intermediate).ofile.map Prod.fst
                  ↔ (K' ∈ intermediate.map KeyValue.Key ∧ K' < K0))
            ∧ ∀ rec ∈ (main.reduceStage srt reducef intermediate).ofile,
                reducef rec.1 (valuesOf rec.1 (srt.sort intermediate)) = some rec.2 := by
  have hp := srt.pairwise_le intermediate
  have hvals := groups_values _ hp
  have hkeys : ∀ k, k ∈ (groups (srt.sort intermediate)).map Prod.fst
      ↔ k ∈ intermediate.map KeyValue.Key := by
    intro k
    rw [mem_groups_keys]
    exact ((srt.perm intermediate).map KeyValue.Key).mem_iff
  have hgrp : ∀ k, k ∈ intermediate.map KeyValue.Key →
      (k, valuesOf k (srt.sort intermediate)) ∈ groups (srt.sort intermediate) := by
    intro k hk
    obtain ⟨g, hg, rfl⟩ := List.mem_map.mp ((hkeys k).mpr hk)
    have := hvals g hg
    rw [← this]
    exact hg
  have habort : (feed reducef (groups (srt.sort intermediate))
      { ofile := [], calls := [], abort := none }).abort = some Abort.reducePanic :=
    feed_fail reducef _ _ ⟨_, hgrp K hK, hfail⟩
  rw [reduceStage_eq]
  refine ⟨habort, ?_⟩
  obtain ⟨pre, g, post, hgs, hg, hrec, hpre, hof, hca⟩ :=
    feed_panic_split reducef (groups (srt.sort intermediate))
      { ofile := [], calls := [], abort := none } rfl habort
  simp only [List.map_nil, List.nil_append] at hof hca
  have hlt := groups_keys_lt _ hp
  rw [hgs, List.map_append, List.map_cons, List.pairwise_append, List.pairwise_cons] at hlt
  obtain ⟨hprelt, ⟨hpost, _⟩, hcross⟩ := hlt
  have hsplit : ∀ k, k ∈ pre.map Prod.fst ++ g.1 :: post.map Prod.fst
      ↔ k ∈ intermediate.map KeyValue.Key := by
    intro k
    have := hkeys k
    rw [hgs, List.map_append, List.map_cons] at this
    exact this
  have hgmem : g ∈ groups (srt.sort intermediate) := by
    rw [hgs]
    exact List.mem_append_right _ (List.mem_cons_self _ _)
  have hpremem : ∀ p ∈ pre, p ∈ groups (srt.sort intermediate) := by
    intro p hp'
    rw [hgs]
    exact List.mem_append_left _ hp'
  have hgv : g.2 = valuesOf g.1 (srt.sort intermediate) := hvals g hgmem
  have hpreok : ∀ k ∈ pre.map Prod.fst,
      ∃ v, reducef k (valuesOf k (srt.sort intermediate)) = some v := by
    intro k hk
    obtain ⟨p, hp', rfl⟩ := List.mem_map.mp hk
    obtain ⟨v, hv⟩ := hpre p hp'
    rw [hvals p (hpremem p hp')] at hv
    exact ⟨v, hv⟩
  refine ⟨g.1, ?_, ?_, ?_, ?_, ?_, ?_, ?_, ?_⟩
  · rcases List.mem_append.mp ((hsplit K).mpr hK) with h1 | h1
    · obtain ⟨v, hv⟩ := hpreok K h1
      rw [hfail] at hv
      cases hv
    · rcases List.mem_cons.mp h1 with h2 | h2
      · exact le_of_eq h2.symm
      · exact le_of_lt (hpost K h2)
  · exact (hsplit g.1).mp (by simp)
  · rw [← hgv]
    exact hg
  · intro K' hK' hlt'
    rcases List.mem_append.mp ((hsplit K').mpr hK') with h1 | h1
    · exact hpreok K' h1
    · rcases List.mem_cons.mp h1 with h2 | h2
      · exact absurd hlt' (by rw [h2]; exact lt_irrefl _)
      · exact absurd hlt' (not_lt_of_gt (hpost K' h2))
  · rw [hca, ← hgv]
    simp
  · rw [hof]
    exact hprelt.imp (fun hk => ne_of_lt hk)
  · intro K'
    rw [hof]
    constructor
    · intro hmem
      exact ⟨(hsplit K').mp (List.mem_append_left _ hmem),
        hcross K' hmem g.1 (List.mem_cons_self _ _)⟩
    · rintro ⟨hmem, hKlt⟩
      rcases List.mem_append.mp ((hsplit K').mpr hmem) with h1 | h1
      · exact h1
      · rcases List.mem_cons.mp h1 with h2 | h2
        · exact absurd hKlt (by rw [h2]; exact lt_irrefl _)
        · exact absurd hKlt (not_lt_of_gt (hpost K' h2))
  · intro rec hmem
    rcases hrec rec hmem with h1 | ⟨p, hp', hp1, hp2⟩
    · cases h1
    · rw [hvals p (hpremem p hp'), hp1] at hp2
      exact hp2

/-- An instance of the amended C6: the reduce function fails on "b", between the keys "a"
and "c" of the collection. -/
theorem C6_witness :
    (main.reduceStage stableSorter
        (fun key values => if key = "b" then none else some (wc.Reduce key values))
        [⟨"c", "z"⟩, ⟨"a", "x"⟩, ⟨"b", "y"⟩]).abort = some Abort.reducePanic
      ∧ ∃ K0 : String,
          K0 ≤ "b" ∧ K0 ∈ ([⟨"c", "z"⟩, ⟨"a", "x"⟩, ⟨"b", "y"⟩] : List KeyValue).map KeyValue.Key
            ∧ (fun key values => if key = "b" then none else some (wc.Reduce key values)) K0
                (valuesOf K0 (stableSorter.sort [⟨"c", "z"⟩, ⟨"a", "x"⟩, ⟨"b", "y"⟩])) = none
            ∧ (∀ K' ∈ ([⟨"c", "z"⟩, ⟨"a", "x"⟩, ⟨"b", "y"⟩] : List KeyValue).map KeyValue.Key,
                K' < K0 →
                ∃ v, (fun key values =>
                    if key = "b" then none else some (wc.Reduce key values)) K'
                  (valuesOf K' (stableSorter.sort [⟨"c", "z"⟩, ⟨"a", "x"⟩, ⟨"b", "y"⟩])) = some v)
            ∧ (main.reduceStage stableSorter
                (fun key values => if key = "b" then none else some (wc.Reduce key values))
                [⟨"c", "z"⟩, ⟨"a", "x"⟩, ⟨"b", "y"⟩]).calls.getLast?
                = some (K0, valuesOf K0
                    (stableSorter.sort [⟨"c", "z"⟩, ⟨"a", "x"⟩, ⟨"b", "y"⟩]))
            ∧ ((main.reduceStage stableSorter
                (fun key values => if key = "b" then none else some (wc.Reduce key values))
                [⟨"c", "z"⟩, ⟨"a", "x"⟩, ⟨"b", "y"⟩]).ofile.map Prod.fst).Nodup
            ∧ (∀ K' : String,
                K' ∈ (main.reduceStage stableSorter
                    (fun key values => if key = "b" then none else some (wc.Reduce key values))
                    [⟨"c", "z"⟩, ⟨"a", "x"⟩, ⟨"b", "y"⟩]).ofile.map Prod.fst
                  ↔ (K' ∈ ([⟨"c", "z"⟩, ⟨"a", "x"⟩, ⟨"b", "y"⟩] : List KeyValue).map KeyValue.Key
                      ∧ K' < K0))
            ∧ ∀ rec ∈ (main.reduceStage stableSorter
                (fun key values => if key = "b" then none else some (wc.Reduce key values))
                [⟨"c", "z"⟩, ⟨"a", "x"⟩, ⟨"b", "y"⟩]).ofile,
                (fun key values => if key = "b" then none else some (wc.Reduce key values)) rec.1
                  (valuesOf rec.1 (stableSorter.sort [⟨"c", "z"⟩, ⟨"a", "x"⟩, ⟨"b", "y"⟩]))
                  = some rec.2 :=
  C6_failure_aborts_after_smaller_keys stableSorter
    (fun key values => if key = "b" then none else some (wc.Reduce key values))
    [⟨"c", "z"⟩, ⟨"a", "x"⟩, ⟨"b", "y"⟩] "b" (by decide) (by decide)

/-- C7: for every map function, every reduce function whose result does not change when
its values list is permuted, every list of input units and every permutation of that list,
the driver writes the same sequence of records for the permuted list as for the original
list (and aborts in the one run exactly if it aborts in the other). -/
theorem C7_permuted_units_same_output (srt : Sorter) (mapf : MapFn) (reducef : ReduceFn)
    (hinv : ∀ k vs vs', List.Perm vs vs' → reducef k vs = reducef k vs')
    (units units' : List (String × String)) (hperm : List.Perm units units') :
    (main.driver srt mapf reducef units).ofile = (main.driver srt mapf reducef units').ofile
      ∧ (main.driver srt mapf reducef units).abort
          = (main.driver srt mapf reducef units').abort :=
  driver_ofile_eq_of_perm srt srt mapf mapf reducef hinv units units'
    (List.Perm.flatMap_right _ hperm)

/-- An instance of C7: word count over two units, in both orders. -/
theorem C7_witness :
    (main.driver shellSorter (wc.Map Char.isAlpha) (total wc.Reduce)
        [("f1", "b a"), ("f2", "c b")]).ofile
        = (main.driver shellSorter (wc.Map Char.isAlpha) (total wc.Reduce)
            [("f2", "c b"), ("f1", "b a")]).ofile
      ∧ (main.driver shellSorter (wc.Map Char.isAlpha) (total wc.Reduce)
          [("f1", "b a"), ("f2", "c b")]).abort
        = (main.driver shellSorter (wc.Map Char.isAlpha) (total wc.Reduce)
            [("f2", "c b"), ("f1", "b a")]).abort :=
  C7_permuted_units_same_output shellSorter (wc.Map Char.isAlpha) (total wc.Reduce)
    total_Reduce_perm [("f1", "b a"), ("f2", "c b")] [("f2", "c b"), ("f1", "b a")]
    (List.Perm.swap _ _ _)

/-- C9: for every file name and contents, `Map(filename, contents)` returns, in order of
appearance, exactly one record (w, "1") for each maximal run w of letters in the contents
and nothing else; so every value is "1" and every key is non-empty and consists of letters
only; the result does not depend on the file name.  With a letter test that agrees with the
ASCII letters on the characters of "the cat the dog", these contents give the records
("the","1"), ("cat","1"), ("the","1"), ("dog","1"). -/
theorem C9_Map_letter_runs (IsLetter : Char → Bool) (filename contents : String) :
    wc.Map IsLetter filename contents
        = (letterRuns IsLetter contents.toList).map (fun w => KeyValue.mk (String.mk w) "1")
      ∧ (∀ kv ∈ wc.Map IsLetter filename contents,
          kv.Value = "1" ∧ kv.Key ≠ "" ∧ ∀ c ∈ kv.Key.toList, IsLetter c = true)
      ∧ (∀ filename' : String,
          wc.Map IsLetter filename' contents = wc.Map IsLetter filename contents)
      ∧ ((∀ c ∈ "the cat the dog".toList, IsLetter c = c.isAlpha) →
          wc.Map IsLetter filename "the cat the dog"
            = [⟨"the", "1"⟩, ⟨"cat", "1"⟩, ⟨"the", "1"⟩, ⟨"dog", "1"⟩]) := by
  refine ⟨Map_eq IsLetter filename contents, ?_, ?_, ?_⟩
  · intro kv hkv
    rw [Map_eq, List.mem_map] at hkv
    obtain ⟨w, hw, rfl⟩ := hkv
    obtain ⟨hne, hlet⟩ := letterRuns_letters IsLetter _ _ (Nat.le_refl _) w hw
    refine ⟨rfl, ?_, hlet⟩
    intro hcon
    exact hne (congrArg String.toList hcon)
  · intro filename'
    exact Map_filename IsLetter filename filename' contents
  · intro hL
    rw [Map_filename IsLetter "" filename, Map_congr IsLetter Char.isAlpha _ _ hL]
    decide

/-- An instance of C9: the scenario with the ASCII letter test. -/
theorem C9_witness :
    wc.Map Char.isAlpha "doc1.txt" "the cat the dog"
      = [⟨"the", "1"⟩, ⟨"cat", "1"⟩, ⟨"the", "1"⟩, ⟨"dog", "1"⟩] :=
  (C9_Map_letter_runs Char.isAlpha "doc1.txt" "").2.2.2 (fun _ _ => rfl)

/-- C10: for every key and values list, `Reduce(key, values)` is the base-10 representation
of the number of elements of `values`, and it gives the same result on every permutation of
the values list. -/
theorem C10_Reduce_counts (key : String) (values : List String) :
    IsDecimalOf (wc.Reduce key values) values.length
      ∧ ∀ values' : List String, List.Perm values values' →
          wc.Reduce key values' = wc.Reduce key values := by
  refine ⟨?_, ?_⟩
  · rw [Reduce_eq]
    exact repr_isDecimalOf _
  · intro values' hp
    exact (Reduce_perm key values values' hp).symm

/-- An instance of C10: three values, in two orders. -/
theorem C10_witness :
    wc.Reduce "the" ["2", "1", "3"] = wc.Reduce "the" ["1", "2", "3"] :=
  (C10_Reduce_counts "the" ["1", "2", "3"]).2 ["2", "1", "3"] (List.Perm.swap "2" "1" ["3"])

/-! ## Runs of keys of an arbitrary slice -/

theorem recordsOf_run (kv : KeyValue) (tw : List KeyValue) (h : ∀ x ∈ tw, x.Key = kv.Key) :
    recordsOf (kv.Key, kv.Value :: tw.map KeyValue.Value) = kv :: tw := by
  unfold recordsOf
  simp only [List.map_cons, List.map_map]
  congr 1
  conv_rhs => rw [← List.map_id tw]
  apply List.map_congr_left
  intro x hx
  have hk := h x hx
  obtain ⟨xk, xv⟩ := x
  simp only at hk
  simp only [Function.comp, id, hk]

theorem groups_partition (n : Nat) :
    ∀ l : List KeyValue, l.length ≤ n →
      (groups l).flatMap recordsOf = l
        ∧ (∀ g ∈ groups l, g.2 ≠ [])
        ∧ (groups l).Chain' (fun g g' => g.1 ≠ g'.1)
        ∧ ∀ g ∈ (groups l).head?, ∀ x ∈ l.head?, g.1 = x.Key := by
  induction n with
  | zero =>
    intro l hl
    have : l = [] := List.length_eq_zero.mp (Nat.le_zero.mp hl)
    subst this
    simp [groups_nil]
  | succ n ih =>
    intro l hl
    cases l with
    | nil => simp [groups_nil]
    | cons kv rest =>
      have hsub := List.dropWhile_sublist (l := rest) (fun x => decide (x.Key = kv.Key))
      have hdl : (rest.dropWhile (fun x => decide (x.Key = kv.Key))).length ≤ n := by
        have := List.Sublist.length_le hsub
        simp only [List.length_cons] at hl
        omega
      obtain ⟨i1, i2, i3, i4⟩ := ih _ hdl
      rw [groups_cons]
      refine ⟨?_, ?_, ?_, ?_⟩
      · rw [List.flatMap_cons, i1, recordsOf_run kv _ (mem_takeWhile_key kv.Key rest),
          List.cons_append, takeWhile_append_dropWhile_key]
      · intro g hg
        rcases List.mem_cons.mp hg with rfl | hg
        · exact List.cons_ne_nil _ _
        · exact i2 g hg
      · rw [List.chain'_cons']
        refine ⟨?_, i3⟩
        intro g hg
        have hnot := List.head?_dropWhile_not (fun x => decide (x.Key = kv.Key)) rest
        cases hdw : rest.dropWhile (fun x => decide (x.Key = kv.Key)) with
        | nil =>
          rw [hdw, groups_nil] at hg
          simp at hg
        | cons y ys =>
          rw [hdw] at hnot i4
          simp only [List.head?_cons] at hnot
          have hy : y.Key ≠ kv.Key := by simpa using hnot
          have := i4 g (by rw [← hdw]; exact hg) y (by simp)
          simp only
          rw [this]
          exact Ne.symm hy
      · intro g hg x hx
        simp only [List.head?_cons, Option.mem_def, Option.some.injEq] at hg hx
        subst hg
        subst hx
        rfl

/-- The runs of any slice, laid end to end, are the slice. -/
theorem groups_flatMap (l : List KeyValue) : (groups l).flatMap recordsOf = l :=
  (groups_partition l.length l (Nat.le_refl _)).1

theorem groups_ne_nil (l : List KeyValue) : ∀ g ∈ groups l, g.2 ≠ [] :=
  (groups_partition l.length l (Nat.le_refl _)).2.1

theorem groups_chain (l : List KeyValue) : (groups l).Chain' (fun g g' => g.1 ≠ g'.1) :=
  (groups_partition l.length l (Nat.le_refl _)).2.2.1

/-- A reduce loop that ends without abort has called the reduce function on every run. -/
theorem feed_done (reducef : ReduceFn) :
    ∀ (gs : List (String × List String)) (r : Run),
      r.abort = none → (feed reducef gs r).abort = none →
        (feed reducef gs r).calls = r.calls ++ gs := by
  intro gs
  induction gs with
  | nil => intro r _ _; simp [feed]
  | cons g gs ih =>
    intro r h0 h
    obtain ⟨k, vs⟩ := g
    unfold feed at h ⊢
    cases hr : reducef k vs with
    | none =>
      rw [hr] at h
      cases h
    | some output =>
      rw [hr] at h
      simp only at h ⊢
      rw [ih { r with ofile := r.ofile ++ [(k, output)], calls := r.calls ++ [(k, vs)] } h0 h]
      simp

theorem groups_length_sum (l : List KeyValue) :
    ((groups l).map (fun g => g.2.length)).sum = l.length := by
  have h := congrArg List.length (groups_flatMap l)
  rw [List.flatMap, List.length_flatten, List.map_map] at h
  rw [← h]
  congr 1
  apply List.map_congr_left
  intro g _
  simp [recordsOf]

/-! ## `loadPlugin` and `main` by cases -/

theorem loadPlugin_cases (w : World) (filename : String) :
    (∃ mapf reducef, Resolves w filename mapf reducef
        ∧ loadPlugin w filename
          = ([.pluginOpen filename, .lookup "Map", .lookup "Reduce"], .ok (mapf, reducef)))
      ∨ ((¬ ∃ mapf reducef, Resolves w filename mapf reducef)
        ∧ ∃ tr stop, loadPlugin w filename = (tr, .error stop)
          ∧ tr.head? = some (.pluginOpen filename) ∧ ∀ s ∈ tr, s.isInput = true) := by
  cases hp : w.pluginOpen filename with
  | none =>
    right
    refine ⟨?_, ?_⟩
    · rintro ⟨_, _, p, h, _⟩
      rw [hp] at h
      cases h
    · simp only [loadPlugin, hp]
      exact ⟨_, _, rfl, rfl, by simp [Step.isInput]⟩
  | some p =>
    cases hm : p.Lookup "Map" with
    | none =>
      right
      refine ⟨?_, ?_⟩
      · rintro ⟨_, _, p', h, h2, _⟩
        rw [hp] at h
        cases h
        rw [hm] at h2
        cases h2
      · simp only [loadPlugin, hp, hm]
        exact ⟨_, _, rfl, rfl, by simp [Step.isInput]⟩
    | some xmapf =>
      cases xmapf with
      | mapFunc mapf =>
        cases hr : p.Lookup "Reduce" with
        | none =>
          right
          refine ⟨?_, ?_⟩
          · rintro ⟨_, _, p', h, _, h3⟩
            rw [hp] at h
            cases h
            rw [hr] at h3
            cases h3
          · simp only [loadPlugin, hp, hm, hr]
            exact ⟨_, _, rfl, rfl, by simp [Step.isInput]⟩
        | some xreducef =>
          cases xreducef with
          | reduceFunc reducef =>
            left
            refine ⟨mapf, reducef, ⟨p, hp, hm, hr⟩, ?_⟩
            simp only [loadPlugin, hp, hm, hr]
          | mapFunc f =>
            right
            refine ⟨?_, ?_⟩
            · rintro ⟨_, _, p', h, _, h3⟩
              rw [hp] at h
              cases h
              rw [hr] at h3
              cases h3
            · simp only [loadPlugin, hp, hm, hr]
              exact ⟨_, _, rfl, rfl, by simp [Step.isInput]⟩
          | other =>
            right
            refine ⟨?_, ?_⟩
            · rintro ⟨_, _, p', h, _, h3⟩
              rw [hp] at h
              cases h
              rw [hr] at h3
              cases h3
            · simp only [loadPlugin, hp, hm, hr]
              exact ⟨_, _, rfl, rfl, by simp [Step.isInput]⟩
      | reduceFunc f =>
        right
        refine ⟨?_, ?_⟩
        · rintro ⟨_, _, p', h, h2, _⟩
          rw [hp] at h
          cases h
          rw [hm] at h2
          cases h2
        · simp only [loadPlugin, hp, hm]
          exact ⟨_, _, rfl, rfl, by simp [Step.isInput]⟩
      | other =>
        right
        refine ⟨?_, ?_⟩
        · rintro ⟨_, _, p', h, h2, _⟩
          rw [hp] at h
          cases h
          rw [hm] at h2
          cases h2
        · simp only [loadPlugin, hp, hm]
          exact ⟨_, _, rfl, rfl, by simp [Step.isInput]⟩

theorem mapLoop_cases (w : World) (mapf : MapFn) :
    ∀ (files : List String) (st : MapState) (tr : List Step),
      (∃ units : List (String × String), units.map Prod.fst = files
          ∧ (∀ u ∈ units, w.file u.1 = .contents u.2)
          ∧ main.mapLoop w mapf files st tr
            = (tr ++ units.flatMap readSteps, .ok (units.foldl (main.mapStep mapf) st)))
        ∨ ((∃ f ∈ files, ∀ c, w.file f ≠ .contents c)
          ∧ ∃ tr', main.mapLoop w mapf files st tr = (tr ++ tr', .error .fatal)
            ∧ ∀ s ∈ tr', s.isInput = true) := by
  intro files
  induction files with
  | nil =>
    intro st tr
    left
    exact ⟨[], rfl, by simp, by simp [main.mapLoop]⟩
  | cons f rest ih =>
    intro st tr
    unfold main.mapLoop
    cases hf : w.file f with
    | cannotOpen =>
      right
      refine ⟨⟨f, List.mem_cons_self _ _, ?_⟩, _, rfl, ?_⟩
      · intro c hc
        rw [hf] at hc
        cases hc
      · intro s hs
        simp at hs
        rcases hs with rfl | rfl <;> rfl
    | cannotRead =>
      right
      refine ⟨⟨f, List.mem_cons_self _ _, ?_⟩, _, rfl, ?_⟩
      · intro c hc
        rw [hf] at hc
        cases hc
      · intro s hs
        simp at hs
        rcases hs with rfl | rfl | rfl <;> rfl
    | contents content =>
      simp only
      rcases ih (main.mapStep mapf st (f, content))
          (tr ++ [.openFile f, .readAll f, .mapCall f content]) with
        ⟨units, hu, hall, heq⟩ | ⟨⟨g, hg, hbad⟩, tr', heq, hin⟩
      · left
        refine ⟨(f, content) :: units, by simp [hu], ?_, ?_⟩
        · intro u hu'
          rcases List.mem_cons.mp hu' with rfl | hu'
          · exact hf
          · exact hall u hu'
        · rw [heq]
          simp [readSteps]
      · right
        refine ⟨⟨g, List.mem_cons_of_mem _ hg, hbad⟩,
          [.openFile f, .readAll f, .mapCall f content] ++ tr', ?_, ?_⟩
        · rw [heq]
          simp
        · intro s hs
          rcases List.mem_append.mp hs with h1 | h1
          · simp at h1
            rcases h1 with rfl | rfl | rfl <;> rfl
          · exact hin s h1

theorem readSteps_isInput (units : List (String × String)) :
    ∀ s ∈ units.flatMap readSteps, s.isInput = true := by
  intro s hs
  rw [List.mem_flatMap] at hs
  obtain ⟨u, _, hu⟩ := hs
  simp [readSteps] at hu
  rcases hu with rfl | rfl | rfl <;> rfl

/-- The three ways in which a run of `main` goes: the usage exit, a failure while the plugin
is loaded or an input is read, or the output phase after all of that has succeeded. -/
theorem main_cases (srt : Sorter) (w : World) (Args : List String) :
    (Args.length < 3
        ∧ (main srt w Args).trace = [.stderr usageText, .exit 1]
        ∧ (main srt w Args).status = 1 ∧ (main srt w Args).output = none)
      ∨ (3 ≤ Args.length
        ∧ ((¬ ∃ mapf reducef, Resolves w (Args.getD 1 "") mapf reducef)
          ∨ ∃ f ∈ Args.drop 2, ∀ c, w.file f ≠ .contents c)
        ∧ (main srt w Args).output = none ∧ (main srt w Args).status ≠ 0
        ∧ (main srt w Args).trace.head? = some (.pluginOpen (Args.getD 1 ""))
        ∧ ∀ s ∈ (main srt w Args).trace, s.isInput = true)
      ∨ (3 ≤ Args.length
        ∧ ∃ mapf reducef units, Resolves w (Args.getD 1 "") mapf reducef
          ∧ units.map Prod.fst = Args.drop 2
          ∧ (∀ u ∈ units, w.file u.1 = .contents u.2)
          ∧ (main srt w Args).trace
            = [.pluginOpen (Args.getD 1 ""), .lookup "Map", .lookup "Reduce"]
                ++ units.flatMap readSteps ++ [.sort, .create "mr-out-0"]
          ∧ (main srt w Args).output = some (main.driver srt mapf reducef units)
          ∧ (main srt w Args).status = (main.driver srt mapf reducef units).status) := by
  by_cases hlen : Args.length < 3
  · left
    simp [main, hlen]
  · right
    have h3 : 3 ≤ Args.length := by omega
    rcases loadPlugin_cases w (Args.getD 1 "") with
      ⟨mapf, reducef, hres, hload⟩ | ⟨hno, tr, stop, hload, hhead, hin⟩
    · rcases mapLoop_cases w mapf (Args.drop 2) { intermediate := [], calls := [] }
          [.pluginOpen (Args.getD 1 ""), .lookup "Map", .lookup "Reduce"] with
        ⟨units, hu, hall, hmap⟩ | ⟨hbad, tr', hmap, hin⟩
      · right
        refine ⟨h3, mapf, reducef, units, hres, hu, hall, ?_, ?_, ?_⟩ <;>
          simp only [main, hlen, if_false, hload, hmap] <;> rfl
      · left
        refine ⟨h3, Or.inr hbad, ?_, ?_, ?_, ?_⟩
        · simp only [main, hlen, if_false, hload, hmap]
        · simp only [main, hlen, if_false, hload, hmap]
          decide
        · simp only [main, hlen, if_false, hload, hmap]
          rfl
        · simp only [main, hlen, if_false, hload, hmap]
          intro s hs
          rcases List.mem_append.mp hs with h1 | h1
          · simp at h1
            rcases h1 with rfl | rfl | rfl <;> rfl
          · exact hin s h1
    · left
      refine ⟨h3, Or.inl hno, ?_, ?_, ?_, ?_⟩
      · simp only [main, hlen, if_false, hload]
      · simp only [main, hlen, if_false, hload]
        cases stop <;> decide
      · simp only [main, hlen, if_false, hload]
        exact hhead
      · simp only [main, hlen, if_false, hload]
        exact hin

/-! ## The claims, continued -/

/-- C11: for every map and reduce function, if the list of input units is empty, or more
generally if the intermediate collection is empty, then the sorted collection has no run of
keys, the reduce function is not called, and no record is written (the run is not
aborted). -/
theorem C11_empty_intermediate_empty_output (srt : Sorter) (mapf : MapFn)
    (reducef : ReduceFn) :
    main.driver srt mapf reducef [] = { ofile := [], calls := [], abort := none }
      ∧ main.reduceStage srt reducef [] = { ofile := [], calls := [], abort := none }
      ∧ groups (srt.sort []) = []
      ∧ ∀ units : List (String × String), (main.mapStage mapf units).intermediate = [] →
          main.driver srt mapf reducef units = { ofile := [], calls := [], abort := none } := by
  have hs : srt.sort [] = [] := List.Perm.eq_nil (srt.perm [])
  have hstage : main.reduceStage srt reducef []
      = { ofile := [], calls := [], abort := none } := by
    rw [reduceStage_eq, hs, groups_nil]
    rfl
  refine ⟨?_, hstage, by rw [hs, groups_nil], ?_⟩
  · unfold main.driver
    rw [mapStage_eq]
    exact hstage
  · intro units hu
    unfold main.driver
    rw [hu]
    exact hstage

/-- An instance of C11: word count on a unit without a letter. -/
theorem C11_witness :
    main.driver shellSorter (wc.Map Char.isAlpha) (total wc.Reduce) [("digits.txt", "12 34")]
      = { ofile := [], calls := [], abort := none } :=
  (C11_empty_intermediate_empty_output shellSorter (wc.Map Char.isAlpha)
    (total wc.Reduce)).2.2.2 [("digits.txt", "12 34")] (by decide)

/-- C12: for every intermediate collection (and every reduce function that returns on every
call), the text written to `mr-out-0` is exactly the concatenation, over the keys of the
collection in strictly ascending order, each key once, of the line
`key ++ " " ++ reducef(key, values) ++ "\n"`, where `values` are the values of the key in
the sorted collection: one line for each record, nothing before, between or after. -/
theorem C12_file_text (srt : Sorter) (reducef : String → List String → String)
    (intermediate : List KeyValue) :
    ∃ keys : List String,
      keys.Pairwise (fun k k' => k < k')
        ∧ (∀ k : String, k ∈ keys ↔ k ∈ intermediate.map KeyValue.Key)
        ∧ (main.reduceStage srt (total reducef) intermediate).ofile
            = keys.map (fun k => (k, reducef k (valuesOf k (srt.sort intermediate))))
        ∧ fileText (main.reduceStage srt (total reducef) intermediate).ofile
            = String.join (keys.map (fun k =>
                k ++ " " ++ reducef k (valuesOf k (srt.sort intermediate)) ++ "\n")) := by
  have hp := srt.pairwise_le intermediate
  have hof : (main.reduceStage srt (total reducef) intermediate).ofile
      = ((groups (srt.sort intermediate)).map Prod.fst).map
          (fun k => (k, reducef k (valuesOf k (srt.sort intermediate)))) := by
    rw [reduceStage_eq, feed_total]
    simp only [List.nil_append]
    conv_lhs => rw [groups_eq_map_keys _ hp]
    rw [List.map_map]
    rfl
  refine ⟨(groups (srt.sort intermediate)).map Prod.fst, groups_keys_lt _ hp, ?_, hof, ?_⟩
  · intro k
    rw [mem_groups_keys]
    exact ((srt.perm intermediate).map KeyValue.Key).mem_iff
  · rw [hof]
    unfold fileText
    rw [List.map_map]
    rfl

/-- C13: if the plugin does not resolve to a map and a reduce function of the expected
types, or if an input file cannot be opened or read, the run ends with a non-zero exit
status and `mr-out-0` is neither created nor written.  In every run in which `mr-out-0` is
created, the argument vector has at least 3 elements, the plugin has resolved, every input
file has been opened, read and mapped, in the order of the arguments and before the
creation, and the output phase is the reduce phase on the intermediate collection of these
units. -/
theorem C13_output_only_after_inputs (srt : Sorter) (w : World) (Args : List String) :
    (((¬ ∃ mapf reducef, Resolves w (Args.getD 1 "") mapf reducef)
          ∨ ∃ f ∈ Args.drop 2, ∀ c, w.file f ≠ .contents c) →
        (main srt w Args).output = none
          ∧ (∀ oname, Step.create oname ∉ (main srt w Args).trace)
          ∧ (main srt w Args).status ≠ 0)
      ∧ (((main srt w Args).output ≠ none ∨ ∃ oname, Step.create oname ∈ (main srt w Args).trace) →
          3 ≤ Args.length
            ∧ ∃ mapf reducef units, Resolves w (Args.getD 1 "") mapf reducef
              ∧ units.map Prod.fst = Args.drop 2
              ∧ (∀ u ∈ units, w.file u.1 = .contents u.2)
              ∧ (main srt w Args).trace
                = [.pluginOpen (Args.getD 1 ""), .lookup "Map", .lookup "Reduce"]
                    ++ units.flatMap readSteps ++ [.sort, .create "mr-out-0"]
              ∧ (main srt w Args).output = some (main.driver srt mapf reducef units)) := by
  rcases main_cases srt w Args with
    ⟨_, htr, hst, hout⟩ | ⟨_, _, hout, hst, _, hin⟩
      | ⟨h3, mapf, reducef, units, hres, hu, hall, htr, hout, _⟩
  · refine ⟨fun _ => ⟨hout, ?_, by rw [hst]; decide⟩, ?_⟩
    · intro oname hmem
      rw [htr] at hmem
      simp at hmem
    · rintro (h | ⟨oname, hmem⟩)
      · exact absurd hout h
      · rw [htr] at hmem
        simp at hmem
  · have hnc : ∀ oname, Step.create oname ∉ (main srt w Args).trace := by
      intro oname hmem
      have := hin _ hmem
      cases this
    refine ⟨fun _ => ⟨hout, hnc, hst⟩, ?_⟩
    rintro (h | ⟨oname, hmem⟩)
    · exact absurd hout h
    · exact absurd hmem (hnc oname)
  · refine ⟨?_, fun _ => ⟨h3, mapf, reducef, units, hres, hu, hall, htr, hout⟩⟩
    rintro (hno | ⟨f, hf, hbad⟩)
    · exact absurd ⟨mapf, reducef, hres⟩ hno
    · rw [← hu, List.mem_map] at hf
      obtain ⟨u, hu', rfl⟩ := hf
      exact absurd (hall u hu') (hbad u.2)

/-- An instance of C13: the second input file cannot be opened. -/
theorem C13_witness :
    (main shellSorter exampleWorld ["mrsequential", "wc.so", "doc1.txt", "missing.txt"]).output
        = none
      ∧ (∀ oname, Step.create oname
          ∉ (main shellSorter exampleWorld
              ["mrsequential", "wc.so", "doc1.txt", "missing.txt"]).trace)
      ∧ (main shellSorter exampleWorld ["mrsequential", "wc.so", "doc1.txt", "missing.txt"]).status
        ≠ 0 :=
  (C13_output_only_after_inputs shellSorter exampleWorld
    ["mrsequential", "wc.so", "doc1.txt", "missing.txt"]).1
    (Or.inr ⟨"missing.txt", by decide, fun c hc => by
      have h : exampleWorld.file "missing.txt" = FileResult.cannotOpen := by decide
      rw [h] at hc
      cases hc⟩)

/-- C14: for every argument vector with fewer than 2 arguments after the program name,
`main` prints the usage message to the error stream and exits with status 1, and does
nothing else: the plugin is not loaded, no input is read or mapped, and `mr-out-0` is not
created.  With 2 or more arguments after the program name it does not take this exit: it
does not print the usage message, and its first step is to open the plugin. -/
theorem C14_usage_exit (srt : Sorter) (w : World) (Args : List String) :
    (Args.tail.length < 2 →
        (main srt w Args).trace = [.stderr usageText, .exit 1]
          ∧ (main srt w Args).status = 1
          ∧ (main srt w Args).output = none)
      ∧ (2 ≤ Args.tail.length →
          Step.stderr usageText ∉ (main srt w Args).trace
            ∧ (main srt w Args).trace.head? = some (.pluginOpen (Args.getD 1 ""))) := by
  have hlen : Args.tail.length = Args.length - 1 := List.length_tail Args
  rcases main_cases srt w Args with
    ⟨h3, htr, hst, hout⟩ | ⟨h3, _, _, _, hhead, hin⟩
      | ⟨h3, mapf, reducef, units, _, _, _, htr, _, _⟩
  · exact ⟨fun _ => ⟨htr, hst, hout⟩, fun h => by omega⟩
  · refine ⟨fun h => by omega, fun _ => ⟨?_, hhead⟩⟩
    intro hmem
    have := hin _ hmem
    cases this
  · refine ⟨fun h => by omega, fun _ => ⟨?_, by rw [htr]; rfl⟩⟩
    intro hmem
    rw [htr] at hmem
    rcases List.mem_append.mp hmem with h1 | h1
    · rcases List.mem_append.mp h1 with h2 | h2
      · simp at h2
      · have := readSteps_isInput units _ h2
        cases this
    · simp at h1

/-- An instance of C14: only the plugin is named on the command line. -/
theorem C14_witness :
    (main shellSorter exampleWorld ["mrsequential", "wc.so"]).trace
        = [.stderr usageText, .exit 1]
      ∧ (main shellSorter exampleWorld ["mrsequential", "wc.so"]).status = 1
      ∧ (main shellSorter exampleWorld ["mrsequential", "wc.so"]).output = none :=
  (C14_usage_exit shellSorter exampleWorld ["mrsequential", "wc.so"]).1 (by decide)

/-- C15: for every intermediate collection, the calls that the reduce loop makes split the
sorted collection into maximal runs of equal keys: no call has an empty values list,
consecutive calls have different keys, the records (K, v) of the calls, call after call,
are a prefix of the sorted collection, and they are the whole sorted collection when the
run is not aborted. -/
theorem C15_calls_partition_sorted (srt : Sorter) (reducef : ReduceFn)
    (intermediate : List KeyValue) :
    (∀ call ∈ (main.reduceStage srt reducef intermediate).calls, call.2 ≠ [])
      ∧ (main.reduceStage srt reducef intermediate).calls.Chain' (fun c c' => c.1 ≠ c'.1)
      ∧ List.IsPrefix ((main.reduceStage srt reducef intermediate).calls.flatMap recordsOf)
          (srt.sort intermediate)
      ∧ ((main.reduceStage srt reducef intermediate).abort = none →
          (main.reduceStage srt reducef intermediate).calls.flatMap recordsOf
            = srt.sort intermediate) := by
  rw [reduceStage_eq]
  obtain ⟨n, hn⟩ := feed_calls reducef (groups (srt.sort intermediate))
    { ofile := [], calls := [], abort := none }
  simp only [List.nil_append] at hn
  refine ⟨?_, ?_, ?_, ?_⟩
  · intro call hcall
    rw [hn] at hcall
    exact groups_ne_nil _ call ((List.take_sublist _ _).subset hcall)
  · rw [hn]
    exact (groups_chain (srt.sort intermediate)).take n
  · rw [hn]
    refine ⟨((groups (srt.sort intermediate)).drop n).flatMap recordsOf, ?_⟩
    rw [← List.flatMap_append, List.take_append_drop, groups_flatMap]
  · intro h
    rw [feed_done reducef _ _ rfl h]
    simp only [List.nil_append]
    exact groups_flatMap _

/-- An instance of C15: the run of seven records with the sorter of the older Go
releases. -/
theorem C15_witness :
    (main.reduceStage shellSorter (total wc.Reduce)
        [⟨"b", "1"⟩, ⟨"b", "2"⟩, ⟨"b", "3"⟩, ⟨"b", "4"⟩, ⟨"b", "5"⟩, ⟨"b", "6"⟩, ⟨"a", "7"⟩]).calls.flatMap
        recordsOf
      = shellSorter.sort
          [⟨"b", "1"⟩, ⟨"b", "2"⟩, ⟨"b", "3"⟩, ⟨"b", "4"⟩, ⟨"b", "5"⟩, ⟨"b", "6"⟩, ⟨"a", "7"⟩] :=
  (C15_calls_partition_sorted shellSorter (total wc.Reduce)
    [⟨"b", "1"⟩, ⟨"b", "2"⟩, ⟨"b", "3"⟩, ⟨"b", "4"⟩, ⟨"b", "5"⟩, ⟨"b", "6"⟩, ⟨"a", "7"⟩]).2.2.2
    (by decide)

/-- C17: with the word-count `Map` and `Reduce`, for every list of input units the sum of
the numbers written as values, over all records written, is the total number of words
(maximal runs of letters) in the contents of the units, which is the length of the
intermediate collection. -/
theorem C17_counts_sum_to_words (srt : Sorter) (IsLetter : Char → Bool)
    (units : List (String × String)) :
    ((main.driver srt (wc.Map IsLetter) (total wc.Reduce) units).ofile.map
        (fun rec => decimalValue rec.2.toList)).sum = (wordsOf IsLetter units).length
      ∧ (wordsOf IsLetter units).length
          = (main.mapStage (wc.Map IsLetter) units).intermediate.length := by
  have hlen : (mapOutputs (wc.Map IsLetter) units).length = (wordsOf IsLetter units).length := by
    rw [mapOutputs_Map, List.length_map]
  refine ⟨?_, ?_⟩
  · rw [driver_total_eq]
    simp only [List.map_map]
    have hfun : (groups (srt.sort (mapOutputs (wc.Map IsLetter) units))).map
        ((fun rec : OutputRecord => decimalValue rec.2.toList)
          ∘ fun g : String × List String => (g.1, wc.Reduce g.1 g.2))
        = (groups (srt.sort (mapOutputs (wc.Map IsLetter) units))).map
            (fun g => g.2.length) := by
      apply List.map_congr_left
      intro g _
      simp only [Function.comp]
      rw [Reduce_eq]
      exact (repr_isDecimalOf g.2.length).2.2.2
    rw [hfun, groups_length_sum, (srt.perm _).length_eq, hlen]
  · rw [mapStage_eq]
    exact hlen.symm

/-- C16: for every intermediate collection, the reduce loop ends within its budget of
iterations and never reads out of bounds: the run ends without abort or on a panic of the
reduce function.  In an iteration at `i < len(intermediate)`, the inner scan ends with a
`j` such that `i < j <= len(intermediate)`, the values loop reads the indices `k` with
`i <= k < j`, all within bounds, and the loop goes on at `j`; at
`i >= len(intermediate)` the loop ends. -/
theorem C16_loop_terminates_in_bounds (reducef : ReduceFn) (intermediate : List KeyValue) :
    ((main.reduceLoop reducef intermediate (intermediate.length + 1) 0
          { ofile := [], calls := [], abort := none }).abort = none
        ∨ (main.reduceLoop reducef intermediate (intermediate.length + 1) 0
          { ofile := [], calls := [], abort := none }).abort = some Abort.reducePanic)
      ∧ (∀ srt : Sorter,
          (main.reduceStage srt reducef intermediate).abort = none
            ∨ (main.reduceStage srt reducef intermediate).abort = some Abort.reducePanic)
      ∧ (∀ i : Nat, i < intermediate.length →
          ∃ (j : Nat) (kvi : KeyValue) (values : List String),
            main.scan intermediate i (intermediate.length + 1) (i + 1) = .ok j
              ∧ i < j ∧ j ≤ intermediate.length
              ∧ intermediate[i]? = some kvi
              ∧ main.collect intermediate j (intermediate.length + 1) i [] = .ok values
              ∧ values = ((intermediate.drop i).take (j - i)).map KeyValue.Value
              ∧ values.length = j - i
              ∧ (∀ k : Nat, i ≤ k → k < j → ∃ kv, intermediate[k]? = some kv ∧ kv.Key = kvi.Key)
              ∧ ∀ (fuel : Nat) (run : Run),
                  main.reduceLoop reducef intermediate (fuel + 1) i run
                    = match reducef kvi.Key values with
                      | none =>
                        { run with calls := run.calls ++ [(kvi.Key, values)],
                                   abort := some .reducePanic }
                      | some output =>
                        main.reduceLoop reducef intermediate fuel j
                          { run with ofile := run.ofile ++ [(kvi.Key, output)],
                                     calls := run.calls ++ [(kvi.Key, values)] })
      ∧ (∀ (i fuel : Nat) (run : Run), intermediate.length ≤ i →
          main.reduceLoop reducef intermediate (fuel + 1) i run = run) := by
  refine ⟨?_, ?_, ?_, ?_⟩
  · rw [reduceLoop_eq reducef intermediate _ 0 _ (Nat.zero_le _) (by omega)]
    exact feed_abort reducef _ _
  · intro srt
    rw [reduceStage_eq]
    exact feed_abort reducef _ _
  · intro i hlt
    have hiq : intermediate[i]? = some intermediate[i] := List.getElem?_eq_getElem hlt
    have hd : intermediate.drop i = intermediate[i] :: intermediate.drop (i + 1) :=
      List.drop_eq_getElem_cons hlt
    have hlen : (intermediate.drop (i + 1)).length + 1 ≤ intermediate.length + 1 := by
      simp only [List.length_drop]; omega
    have htl : ((intermediate.drop (i + 1)).takeWhile
        (fun x => decide (x.Key = intermediate[i].Key))).length ≤ intermediate.length - (i + 1) := by
      have := List.Sublist.length_le
        (List.takeWhile_sublist (l := intermediate.drop (i + 1))
          (fun x => decide (x.Key = intermediate[i].Key)))
      simpa only [List.length_drop] using this
    have hsc := scan_eq intermediate i intermediate[i] hiq (intermediate.length + 1) (i + 1) hlen
    generalize htd : ((intermediate.drop (i + 1)).takeWhile
      (fun x => decide (x.Key = intermediate[i].Key))).length = t at htl hsc
    have hco := collect_eq intermediate (i + 1 + t) (by omega) (intermediate.length + 1) i []
      (by omega) (by omega)
    rw [List.nil_append] at hco
    refine ⟨i + 1 + t, intermediate[i], _, hsc, by omega, by omega, hiq, hco, rfl, ?_, ?_, ?_⟩
    · rw [List.length_map, List.length_take, List.length_drop]
      omega
    · intro k hik hkj
      have hk : k < intermediate.length := by omega
      refine ⟨intermediate[k], List.getElem?_eq_getElem hk, ?_⟩
      by_cases hki : k = i
      · subst hki
        rfl
      · have hmem : intermediate[k] ∈ (intermediate.drop (i + 1)).takeWhile
            (fun x => decide (x.Key = intermediate[i].Key)) := by
          rw [← take_length_takeWhile, htd, List.mem_iff_getElem]
          refine ⟨k - (i + 1), ?_, ?_⟩
          · rw [List.length_take, List.length_drop]
            omega
          · rw [List.getElem_take, List.getElem_drop]
            congr 1
            omega
        exact mem_takeWhile_key _ _ _ hmem
    · intro fuel run
      rw [main.reduceLoop]
      simp only [hlt, if_true, hsc, hco, hiq]
  · intro i fuel run hi
    rw [main.reduceLoop]
    simp only [Nat.not_lt.mpr hi, if_false]

/-- An instance of C16: the first iteration on three records, of which the first two have
the same key. -/
theorem C16_witness :
    ∃ (j : Nat) (kvi : KeyValue) (values : List String),
      main.scan [⟨"a", "1"⟩, ⟨"a", "2"⟩, ⟨"b", "3"⟩] 0 4 1 = .ok j
        ∧ 0 < j ∧ j ≤ 3
        ∧ ([⟨"a", "1"⟩, ⟨"a", "2"⟩, ⟨"b", "3"⟩] : List KeyValue)[0]? = some kvi
        ∧ main.collect [⟨"a", "1"⟩, ⟨"a", "2"⟩, ⟨"b", "3"⟩] j 4 0 [] = .ok values
        ∧ values
          = ((([⟨"a", "1"⟩, ⟨"a", "2"⟩, ⟨"b", "3"⟩] : List KeyValue).drop 0).take (j - 0)).map
              KeyValue.Value
        ∧ values.length = j - 0
        ∧ (∀ k : Nat, 0 ≤ k → k < j →
            ∃ kv, ([⟨"a", "1"⟩, ⟨"a", "2"⟩, ⟨"b", "3"⟩] : List KeyValue)[k]? = some kv
              ∧ kv.Key = kvi.Key)
        ∧ ∀ (fuel : Nat) (run : Run),
            main.reduceLoop (total wc.Reduce) [⟨"a", "1"⟩, ⟨"a", "2"⟩, ⟨"b", "3"⟩] (fuel + 1) 0 run
              = match total wc.Reduce kvi.Key values with
                | none =>
                  { run with calls := run.calls ++ [(kvi.Key, values)],
                             abort := some .reducePanic }
                | some output =>
                  main.reduceLoop (total wc.Reduce) [⟨"a", "1"⟩, ⟨"a", "2"⟩, ⟨"b", "3"⟩] fuel j
                    { run with ofile := run.ofile ++ [(kvi.Key, output)],
                               calls := run.calls ++ [(kvi.Key, values)] } :=
  (C16_loop_terminates_in_bounds (total wc.Reduce)
    [⟨"a", "1"⟩, ⟨"a", "2"⟩, ⟨"b", "3"⟩]).2.2.1 0 (by decide)

end MapReduce
